import Mathlib

/-!
Verification of `blaze/compute/pyfunc.py`: the expression-to-Python-source
compiler (`print_python`, `funcstr`, `lambdify`) and the broadcast-fusion pass
(`broadcast_collect`, `leaves_of_type`).

The expression hierarchy itself lives in `blaze.expr` (outside the compiled
fragment); following the specification it is embedded here as an inductive
tree with the node categories the compiler dispatches on, a declared
collection/scalar shape, structural equality (`isidentical`), field lists,
child access (`_inputs`) and child substitution (`_subs`).  The module-level
generator `funcnames` (yielding `func_%d % i` for `i` counting from zero) is embedded
by threading the counter state explicitly through `printPython`.
-/

namespace Pyfunc

/-- A value bound in a generated scope: the `datetime` module, the `math`
module, or an opaque wrapped function object (identified by an id, never
introspected, mirroring `expr.func`). -/
inductive ScopeVal where
  | dtMod
  | mathMod
  | fnObj (fid : Nat)
deriving DecidableEq

/-- Modelled from the spec: the expression-tree node structure supplied by
`blaze.expr`.  One constructor per category `print_python` dispatches on:
Python datetime/date literal values (`dtLit`), plain non-`Expr` literal values
(`lit`), `Symbol` (with its record field names and declared collection
shape), `Field`, `Arithmetic` (with its operator symbol), `Math` (with the
function-class name), the `DateTime` accessor family (`Date`, `Time`,
`Millisecond` and the generic attribute accessors such as `day` or
`microsecond`), `Map` (wrapping an opaque function object), the synthesized
`Broadcast` node (children, scalar leaf references, stored scalar
expression), and `node`, an opaque expression category outside the compiler's
closed grammar (such as `distinct`), with a declared shape and children. -/
inductive Expr where
  | dtLit (r : String)
  | lit (r : String)
  | sym (name : String) (fields : List String) (isColl : Bool)
  | field (child : Expr) (name : String)
  | arith (op : String) (lhs rhs : Expr)
  | math (fname : String) (child : Expr)
  | date (child : Expr)
  | time (child : Expr)
  | millisecond (child : Expr)
  | dt (attr : String) (child : Expr)
  | map (fid : Nat) (child : Expr)
  | bcast (children : List Expr) (scalars : List Expr) (scalarExpr : Expr)
  | node (tag : String) (isColl : Bool) (children : List Expr)

/-- Structural equality of expression trees (`Expr.isidentical`), written by
hand because the tree is a nested inductive. -/
def Expr.beq : Expr → Expr → Bool
  | .dtLit r, b => match b with | .dtLit r' => r == r' | _ => false
  | .lit r, b => match b with | .lit r' => r == r' | _ => false
  | .sym n fs bb, b => match b with | .sym n' fs' bb' => n == n' && fs == fs' && bb == bb' | _ => false
  | .field c n, b => match b with | .field c' n' => c.beq c' && n == n' | _ => false
  | .arith o l r, b => match b with | .arith o' l' r' => o == o' && l.beq l' && r.beq r' | _ => false
  | .math f c, b => match b with | .math f' c' => f == f' && c.beq c' | _ => false
  | .date c, b => match b with | .date c' => c.beq c' | _ => false
  | .time c, b => match b with | .time c' => c.beq c' | _ => false
  | .millisecond c, b => match b with | .millisecond c' => c.beq c' | _ => false
  | .dt a c, b => match b with | .dt a' c' => a == a' && c.beq c' | _ => false
  | .map f c, b => match b with | .map f' c' => f == f' && c.beq c' | _ => false
  | .bcast cs ss se, b => match b with | .bcast cs' ss' se' => go cs cs' && go ss ss' && se.beq se' | _ => false
  | .node t bb cs, b => match b with | .node t' bb' cs' => t == t' && bb == bb' && go cs cs' | _ => false
where go : List Expr → List Expr → Bool
  | [], ys => match ys with | [] => true | _ => false
  | x :: xs, ys => match ys with | y :: ys' => x.beq y && go xs ys' | _ => false

/-- `Expr.beq` decides propositional equality (proved by strong induction on
the size of the first tree, with an inner list induction for the nested-list
constructors). -/
def Expr.beqIffAux : ∀ (n : Nat) (a b : Expr), sizeOf a ≤ n → (Expr.beq a b = true ↔ a = b) := by
  intro n
  induction n with
  | zero => intro a b h; exact absurd h (by cases a <;> simp_arith)
  | succ n ih =>
    have goIff : ∀ xs ys : List Expr, (∀ x ∈ xs, sizeOf x ≤ n) → (Expr.beq.go xs ys = true ↔ xs = ys) := by
      intro xs
      induction xs with
      | nil => intro ys _; cases ys <;> simp [Expr.beq.go]
      | cons x xs ihx =>
        intro ys hb
        cases ys with
        | nil => simp [Expr.beq.go]
        | cons y ys =>
          have e1 : Expr.beq.go (x :: xs) (y :: ys) = (x.beq y && Expr.beq.go xs ys) := rfl
          rw [e1]
          simp [ih x y (hb x (by simp)), ihx ys (fun z hz => hb z (by simp [hz]))]
    intro a b h
    cases a <;> cases b <;>
      (try exact iff_of_false (fun hh => Bool.noConfusion hh) (fun hh => Expr.noConfusion hh)) <;>
      (try simp_arith at h)
    case dtLit.dtLit r r' => simp [Expr.beq]
    case lit.lit r r' => simp [Expr.beq]
    case sym.sym n1 fs1 b1 n2 fs2 b2 => simp [Expr.beq]; tauto
    case field.field c1 n1 c2 n2 => simp [Expr.beq, ih c1 c2 (by omega)]
    case arith.arith o1 l1 r1 o2 l2 r2 =>
      simp [Expr.beq, ih l1 l2 (by omega), ih r1 r2 (by omega)]; tauto
    case math.math f1 c1 f2 c2 => simp [Expr.beq, ih c1 c2 (by omega)]
    case date.date c1 c2 => simp [Expr.beq, ih c1 c2 (by omega)]
    case time.time c1 c2 => simp [Expr.beq, ih c1 c2 (by omega)]
    case millisecond.millisecond c1 c2 => simp [Expr.beq, ih c1 c2 (by omega)]
    case dt.dt a1 c1 a2 c2 => simp [Expr.beq, ih c1 c2 (by omega)]
    case map.map f1 c1 f2 c2 => simp [Expr.beq, ih c1 c2 (by omega)]
    case bcast.bcast cs1 ss1 se1 cs2 ss2 se2 =>
      simp [Expr.beq, ih se1 se2 (by omega),
        goIff cs1 cs2 (fun z hz => by have := List.sizeOf_lt_of_mem hz; omega),
        goIff ss1 ss2 (fun z hz => by have := List.sizeOf_lt_of_mem hz; omega)]
      tauto
    case node.node t1 b1 cs1 t2 b2 cs2 =>
      simp [Expr.beq,
        goIff cs1 cs2 (fun z hz => by have := List.sizeOf_lt_of_mem hz; omega)]
      tauto

/-- Structural equality (`isidentical`) as decidable `=` on `Expr`. -/
instance Expr.instDecEq : DecidableEq Expr :=
  fun a b => decidable_of_iff (Expr.beq a b = true) (Expr.beqIffAux (sizeOf a) a b le_rfl)

/-- Python `isinstance(expr, Expr)`: everything except the two literal-value
categories is an expression node. -/
def Expr.isExprNode : Expr → Bool
  | .dtLit _ => false
  | .lit _ => false
  | _ => true

/-- Modelled from the spec: the shape system's `iscollection(expr.dshape)`
answer.  Leaf symbols and opaque nodes carry their declared shape; the
elementwise categories produce a collection iff a child does; a `Broadcast`
node is a collection operation. -/
def Expr.isCollection : Expr → Bool
  | .dtLit _ => false
  | .lit _ => false
  | .sym _ _ c => c
  | .field ch _ => ch.isCollection
  | .arith _ l r => l.isCollection || r.isCollection
  | .math _ ch => ch.isCollection
  | .date ch => ch.isCollection
  | .time ch => ch.isCollection
  | .millisecond ch => ch.isCollection
  | .dt _ ch => ch.isCollection
  | .map _ ch => ch.isCollection
  | .bcast _ _ _ => true
  | .node _ c _ => c

/-- Modelled from the spec: the stable name `expr._name` the leaf shortcut
renders.  A symbol's name, a field's accessed name; elementwise wrappers
inherit the child's name; other categories have no stable name. -/
def Expr.exprName : Expr → String
  | .sym n _ _ => n
  | .field _ n => n
  | .math _ ch => ch.exprName
  | .date ch => ch.exprName
  | .time ch => ch.exprName
  | .millisecond ch => ch.exprName
  | .dt _ ch => ch.exprName
  | .map _ ch => ch.exprName
  | _ => ""

/-- Modelled from the spec: `expr.fields`, the declared field names (in
order) of a record-typed expression, supplied by the external type system;
modelled for record symbols, which is where `print_python` consults it. -/
def Expr.fieldsList : Expr → List String
  | .sym _ fs _ => fs
  | _ => []

/-- `parenthesize`: wrap a rendered text in parentheses iff it contains a
space (`if ' ' in s`). -/
def parenthesize (s : String) : String :=
  if ' ' ∈ s.data then "(" ++ s ++ ")" else s

/-- The name the process-wide generator `funcnames` yields at counter value
`i`, rendered with the `func_%d` format. -/
def funcName (i : Nat) : String :=
  "func_" ++ Nat.repr i

/-- A scope: the namespace mapping generated code needs, as an ordered
key-value list mirroring a Python dict. -/
abbrev Scope := List (String × ScopeVal)

/-- Python dict assignment (`toolz.assoc`): replace the value at an existing
key, else append the new binding. -/
def scopeAssoc (sc : Scope) (k : String) (v : ScopeVal) : Scope :=
  if sc.any (fun p => p.1 = k) then
    sc.map (fun p => if p.1 = k then (k, v) else p)
  else sc ++ [(k, v)]

/-- `toolz.merge(l, r)`: a dict holding `l` updated with every binding of
`r` (right side wins on key collision). -/
def scopeMerge (l r : Scope) : Scope :=
  r.foldl (fun acc p => scopeAssoc acc p.1 p.2) l

/-- The key list of a scope. -/
def scopeKeys (sc : Scope) : List String :=
  sc.map (fun p => p.1)

/-- The leaf shortcut's test: `any(expr.isidentical(leaf) for leaf in
leaves)`. -/
def isLeafMatch (leaves : List Expr) (e : Expr) : Bool :=
  leaves.any (fun l => decide (e = l))

/-- `print_python(leaves, expr)`: render an expression to evaluable Python
text plus the scope its free names need.  The module-level `funcnames`
generator is threaded as an explicit counter: the result carries the counter
state after the call.  Python exceptions (the final
`raise NotImplementedError()` and `list.index` failure) become `none`. -/
def printPython (leaves : List Expr) : Expr → Nat → Option (String × Scope × Nat)
  | .dtLit r, c => some (r, [("datetime", ScopeVal.dtMod)], c)
  | .lit r, c => some (r, [], c)
  | .sym n fs b, c =>
      if isLeafMatch leaves (.sym n fs b) then some ((Expr.sym n fs b).exprName, [], c)
      else some (n, [], c)
  | .field ch n, c =>
      if isLeafMatch leaves (.field ch n) then some ((Expr.field ch n).exprName, [], c)
      else
        match printPython leaves ch c with
        | none => none
        | some (s, sc, c1) =>
          match ch.fieldsList.findIdx? (fun f => f = n) with
          | none => none
          | some i => some (parenthesize s ++ "[" ++ Nat.repr i ++ "]", sc, c1)
  | .arith op l r, c =>
      if isLeafMatch leaves (.arith op l r) then some ((Expr.arith op l r).exprName, [], c)
      else
        match printPython leaves l c with
        | none => none
        | some (ls, lsc, c1) =>
          match printPython leaves r c1 with
          | none => none
          | some (rs, rsc, c2) =>
            some (parenthesize ls ++ " " ++ op ++ " " ++ parenthesize rs,
              scopeMerge lsc rsc, c2)
  | .math f ch, c =>
      if isLeafMatch leaves (.math f ch) then some ((Expr.math f ch).exprName, [], c)
      else
        match printPython leaves ch c with
        | none => none
        | some (s, sc, c1) =>
          some ("math." ++ f ++ "(" ++ s ++ ")", scopeMerge sc [("math", ScopeVal.mathMod)], c1)
  | .date ch, c =>
      if isLeafMatch leaves (.date ch) then some ((Expr.date ch).exprName, [], c)
      else
        match printPython leaves ch c with
        | none => none
        | some (s, sc, c1) => some (parenthesize s ++ ".date()", sc, c1)
  | .time ch, c =>
      if isLeafMatch leaves (.time ch) then some ((Expr.time ch).exprName, [], c)
      else
        match printPython leaves ch c with
        | none => none
        | some (s, sc, c1) => some (parenthesize s ++ ".time()", sc, c1)
  | .millisecond ch, c =>
      if isLeafMatch leaves (.millisecond ch) then some ((Expr.millisecond ch).exprName, [], c)
      else
        match printPython leaves ch c with
        | none => none
        | some (s, sc, c1) => some (parenthesize s ++ ".microsecond // 1000()", sc, c1)
  | .dt a ch, c =>
      if isLeafMatch leaves (.dt a ch) then some ((Expr.dt a ch).exprName, [], c)
      else
        match printPython leaves ch c with
        | none => none
        | some (s, sc, c1) => some (parenthesize s ++ "." ++ a, sc, c1)
  | .map f ch, c =>
      if isLeafMatch leaves (.map f ch) then some ((Expr.map f ch).exprName, [], c)
      else
        match printPython leaves ch c with
        | none => none
        | some (s, sc, c1) =>
          some (funcName c1 ++ "(" ++ s ++ ")", scopeAssoc sc (funcName c1) (ScopeVal.fnObj f), c1 + 1)
  | .bcast cs ss se, c =>
      if isLeafMatch leaves (.bcast cs ss se) then some ((Expr.bcast cs ss se).exprName, [], c)
      else none
  | .node t b cs, c =>
      if isLeafMatch leaves (.node t b cs) then some ((Expr.node t b cs).exprName, [], c)
      else none

/-- A Python runtime value flowing through a realized compiled function:
an integer, a string, or a tuple (a row). -/
inductive Val where
  | vint (i : Int)
  | vstr (s : String)
  | vtup (elems : List Val)

/-- Modelled from the spec: the meaning of a rendered binary operator symbol
when the realized code runs (`t[0] + t[1]` adds the two looked-up values). -/
def applyArith (op : String) (a b : Val) : Option Val :=
  match op, a, b with
  | "+", .vint x, .vint y => some (.vint (x + y))
  | "-", .vint x, .vint y => some (.vint (x - y))
  | "*", .vint x, .vint y => some (.vint (x * y))
  | _, _, _ => none

/-- Modelled from the spec: the value the realized callable computes.
`funcstr` renders `lambda <leaf-names>: <body>` and `lambdify` realizes it
with `eval`; per the spec this dynamic realization is embedded as a direct
recursive evaluator in which the designated leaves are bound positionally to
the argument list, field access indexes into a tuple by the field's declared
position, and arithmetic applies the operator symbol. -/
def evalExpr (leaves : List Expr) (args : List Val) (e : Expr) : Option Val :=
  match leaves.findIdx? (fun l => decide (l = e)) with
  | some i => args[i]?
  | none =>
    match e with
    | .lit r => (r.toInt?).map Val.vint
    | .field ch n =>
      match evalExpr leaves args ch with
      | some (.vtup vs) =>
        match ch.fieldsList.findIdx? (fun f => f = n) with
        | some i => vs[i]?
        | none => none
      | _ => none
    | .arith op l r =>
      match evalExpr leaves args l, evalExpr leaves args r with
      | some a, some b => applyArith op a b
      | _, _ => none
    | _ => none

/-- Modelled from the spec: `lambdify(leaves, expr)` — build the function
text and realize it into an invocable unit; applying it to a row must
reproduce the value the symbolic expression denotes for that row. -/
def lambdifyModel (leaves : List Expr) (e : Expr) (args : List Val) : Option Val :=
  evalExpr leaves args e

/-- The `Broadcastable` tuple of `pyfunc.py`:
`(Arithmetic, Math, Map, Field, DateTime)` (the `DateTime` class covers the
`Date`, `Time` and `Millisecond` subclasses). -/
def Broadcastable : Expr → Bool
  | .arith _ _ _ => true
  | .math _ _ => true
  | .map _ _ => true
  | .field _ _ => true
  | .date _ => true
  | .time _ => true
  | .millisecond _ => true
  | .dt _ _ => true
  | _ => false

/-- The `WantToBroadcast` tuple of `pyfunc.py`:
`(Arithmetic, Math, Map, DateTime)` — `Broadcastable` without `Field`. -/
def WantToBroadcast : Expr → Bool
  | .arith _ _ _ => true
  | .math _ _ => true
  | .map _ _ => true
  | .date _ => true
  | .time _ => true
  | .millisecond _ => true
  | .dt _ _ => true
  | _ => false

/-- Modelled from the spec: `expr._inputs`, the tuple of expression-valued
children.  Non-`Expr` operands of an arithmetic node (plain literals such as
the `1` of `t.x + 1`) are not inputs. -/
def Expr.inputs : Expr → List Expr
  | .field ch _ => [ch]
  | .arith _ l r => List.filter Expr.isExprNode [l, r]
  | .math _ ch => [ch]
  | .date ch => [ch]
  | .time ch => [ch]
  | .millisecond ch => [ch]
  | .dt _ ch => [ch]
  | .map _ ch => [ch]
  | .bcast cs _ _ => cs
  | .node _ _ cs => cs
  | _ => []

/-- Modelled from the spec: structural substitution
(`expr._subs(dict(zip(expr._inputs, children)))` as `broadcast_collect` uses
it) — rebuild the node with its expression-valued children replaced
positionally by the given list, preserving all other attributes. -/
def Expr.withInputs : Expr → List Expr → Expr
  | .field _ n, [ch'] => .field ch' n
  | .arith op l r, cs =>
    match l.isExprNode, r.isExprNode, cs with
    | true, true, [l', r'] => .arith op l' r'
    | true, false, [l'] => .arith op l' r
    | false, true, [r'] => .arith op l r'
    | _, _, _ => .arith op l r
  | .math f _, [ch'] => .math f ch'
  | .date _, [ch'] => .date ch'
  | .time _, [ch'] => .time ch'
  | .millisecond _, [ch'] => .millisecond ch'
  | .dt a _, [ch'] => .dt a ch'
  | .map f _, [ch'] => .map f ch'
  | .bcast _ ss se, cs => .bcast cs ss se
  | .node t b _, cs => .node t b cs
  | e, _ => e

/-- Whether an elementwise-map node occurs anywhere in the tree. -/
def Expr.hasMap : Expr → Bool
  | .map _ _ => true
  | .field ch _ => ch.hasMap
  | .arith _ l r => l.hasMap || r.hasMap
  | .math _ ch => ch.hasMap
  | .date ch => ch.hasMap
  | .time ch => ch.hasMap
  | .millisecond ch => ch.hasMap
  | .dt _ ch => ch.hasMap
  | .bcast cs ss se =>
      se.hasMap || (cs.attach.any fun x => x.1.hasMap) || (ss.attach.any fun x => x.1.hasMap)
  | .node _ _ cs => cs.attach.any fun x => x.1.hasMap
  | _ => false
termination_by e => sizeOf e
decreasing_by
  all_goals (try simp_arith)
  all_goals have h9 := List.sizeOf_lt_of_mem x.2
  all_goals omega

/-- An expression-valued child is structurally smaller than its parent
(termination measure support for the recursions below). -/
def Expr.sizeOf_inputs_lt : ∀ (x e : Expr), x ∈ e.inputs → sizeOf x < sizeOf e := by
  intro x e hx
  cases e <;> simp [Expr.inputs, List.mem_filter] at hx
  case field ch n => subst hx; simp_arith
  case arith o l r =>
    rcases hx with ⟨hx | hx, _⟩ <;> subst hx <;> simp_arith
  case math f ch => subst hx; simp_arith
  case date ch => subst hx; simp_arith
  case time ch => subst hx; simp_arith
  case millisecond ch => subst hx; simp_arith
  case dt a ch => subst hx; simp_arith
  case map f ch => subst hx; simp_arith
  case bcast cs ss se => have := List.sizeOf_lt_of_mem hx; simp_arith; omega
  case node t b cs => have := List.sizeOf_lt_of_mem hx; simp_arith; omega

/-- `leaves_of_type(types, expr)`: the leaves of an expression, obtained by
recursing through every node whose category is in `types` and treating any
other node as an opaque leaf.  The Python version returns a set
(`set.union(*map(...))`); it is embedded as the concatenated list of the
children's leaf lists, deduplicated where the caller turns it into a sorted
list (`sorted(leaves, key=str)`). -/
def leavesOfType (types : Expr → Bool) (e : Expr) : List Expr :=
  if types e = true then
    (e.inputs.attach.map fun x => leavesOfType types x.1).flatten
  else [e]
termination_by sizeOf e
decreasing_by exact Expr.sizeOf_inputs_lt x.1 e x.2

/-- Every collected leaf is (weakly) structurally below the expression it was
collected from. -/
def sizeOf_leavesOfType_le : ∀ (n : Nat) (ty : Expr → Bool) (e ℓ : Expr),
    sizeOf e ≤ n → ℓ ∈ leavesOfType ty e → sizeOf ℓ ≤ sizeOf e := by
  intro n
  induction n with
  | zero => intro ty e ℓ h _; exact absurd h (by cases e <;> simp_arith)
  | succ n ih =>
    intro ty e ℓ h hm
    rw [leavesOfType] at hm
    split at hm
    · simp only [List.mem_flatten, List.mem_map] at hm
      obtain ⟨l', ⟨x, hx, rfl⟩, hl⟩ := hm
      have hlt := Expr.sizeOf_inputs_lt x.1 e x.2
      have hle := ih ty x.1 ℓ (by omega) hl
      omega
    · simp at hm; subst hm; exact le_rfl

/-- Under a category in `ty`, every collected leaf is strictly structurally
below the expression (the recursion descended at least one level). -/
def sizeOf_leavesOfType_lt : ∀ (ty : Expr → Bool) (e ℓ : Expr),
    ty e = true → ℓ ∈ leavesOfType ty e → sizeOf ℓ < sizeOf e := by
  intro ty e ℓ hty hm
  rw [leavesOfType, if_pos hty] at hm
  simp only [List.mem_flatten, List.mem_map] at hm
  obtain ⟨l', ⟨x, hx, rfl⟩, hl⟩ := hm
  have hlt := Expr.sizeOf_inputs_lt x.1 e x.2
  have hle := sizeOf_leavesOfType_le (sizeOf x.1) ty x.1 ℓ le_rfl hl
  omega

/-- Modelled from the spec: the canonical string key (`key=str`) ordering
the collected leaf set — a stable rendering of the expression. -/
def canonKey : Expr → String
  | .dtLit r => "datetime " ++ r
  | .lit r => r
  | .sym n _ _ => n
  | .field ch n => canonKey ch ++ "." ++ n
  | .arith op l r => canonKey l ++ " " ++ op ++ " " ++ canonKey r
  | .math f ch => f ++ "(" ++ canonKey ch ++ ")"
  | .date ch => canonKey ch ++ ".date"
  | .time ch => canonKey ch ++ ".time"
  | .millisecond ch => canonKey ch ++ ".millisecond"
  | .dt a ch => canonKey ch ++ "." ++ a
  | .map _ ch => "map(" ++ canonKey ch ++ ")"
  | .bcast _ _ _ => "Broadcast"
  | .node t _ _ => t

/-- Ordering of expressions by their canonical string key. -/
def keyLE (a b : Expr) : Prop := canonKey a ≤ canonKey b

instance : DecidableRel keyLE := fun a b => inferInstanceAs (Decidable (canonKey a ≤ canonKey b))

instance : IsTotal Expr keyLE := ⟨fun a b => le_total (canonKey a) (canonKey b)⟩

instance : IsTrans Expr keyLE := ⟨fun _ _ _ h1 h2 => le_trans h1 h2⟩

/-- `sorted(leaves, key=str)` over the collected leaf set: deduplicate and
sort by the canonical string key. -/
def sortedLeaves (e : Expr) : List Expr :=
  List.insertionSort keyLE ((leavesOfType Broadcastable e).dedup)

/-- Modelled from the spec: `broadcast(expr, leaves)` — the synthesized
fused node whose children and scalar leaf-reference list are both the
collected ordered leaf list and whose stored scalar expression is the
original expression unchanged. -/
def broadcastNode (e : Expr) (ls : List Expr) : Expr := .bcast ls ls e

/-- `broadcast_collect(expr)`: wherever a `WantToBroadcast`-category node has
a collection shape, replace it by a fused `Broadcast` node over its sorted
leaf set; then recurse into the (possibly just-replaced) node's children and
rebuild it by structural substitution. -/
def broadcastCollect (e : Expr) : Expr :=
  if h : (WantToBroadcast e && e.isCollection) = true then
    (broadcastNode e (sortedLeaves e)).withInputs
      ((sortedLeaves e).attach.map fun x => broadcastCollect x.1)
  else
    e.withInputs (e.inputs.attach.map fun x => broadcastCollect x.1)
termination_by sizeOf e
decreasing_by
  · have hw : WantToBroadcast e = true := by
      rw [Bool.and_eq_true] at h; exact h.1
    have hB : Broadcastable e = true := by
      cases e <;> simp [WantToBroadcast, Broadcastable] at hw ⊢
    have hm : x.1 ∈ (leavesOfType Broadcastable e).dedup := by
      have hp := List.perm_insertionSort keyLE ((leavesOfType Broadcastable e).dedup)
      exact hp.mem_iff.mp (by simpa [sortedLeaves] using x.2)
    exact sizeOf_leavesOfType_lt Broadcastable e x.1 hB (List.mem_dedup.mp hm)
  · exact Expr.sizeOf_inputs_lt x.1 e x.2

/-- The characters of a rendered text with the decimal digits erased (texts
produced at different counter states differ only in generated digits). -/
def stripDigits (l : List Char) : List Char := l.filter (fun ch => !ch.isDigit)

/-- The node categories outside the compiler's closed grammar (they reach
the final `raise NotImplementedError()`). -/
def outsideGrammar : Expr → Bool
  | .bcast _ _ _ => true
  | .node _ _ _ => true
  | _ => false


theorem toDigitsCore_eq_digits :
    ∀ (fuel n : Nat) (ds : List Char), 0 < n → n < fuel →
      Nat.toDigitsCore 10 fuel n ds = ((Nat.digits 10 n).map Nat.digitChar).reverse ++ ds := by
  intro fuel
  induction fuel with
  | zero => intro n ds h1 h2; omega
  | succ fuel ih =>
    intro n ds h1 h2
    rw [Nat.toDigitsCore]
    rw [Nat.digits_def' (by norm_num : (1:Nat) < 10) h1]
    by_cases hz : n / 10 = 0
    · rw [if_pos hz, hz, Nat.digits_zero]
      simp
    · rw [if_neg hz]
      rw [ih (n / 10) _ (Nat.pos_of_ne_zero hz) (by
        have := Nat.div_lt_self h1 (by norm_num : (1:Nat) < 10)
        omega)]
      simp

theorem toDigits_eq_digits (n : Nat) (h : 0 < n) :
    Nat.toDigits 10 n = ((Nat.digits 10 n).map Nat.digitChar).reverse := by
  rw [Nat.toDigits, toDigitsCore_eq_digits (n + 1) n [] h (by omega), List.append_nil]

theorem natRepr_data (n : Nat) :
    (Nat.repr n).data = if n = 0 then ['0'] else ((Nat.digits 10 n).map Nat.digitChar).reverse := by
  rcases Nat.eq_zero_or_pos n with h | h
  · subst h; rfl
  · rw [if_neg (by omega)]
    show (Nat.toDigits 10 n).asString.data = _
    rw [toDigits_eq_digits n h]
    rfl

theorem digitChar_isDigit : ∀ d, d < 10 → (Nat.digitChar d).isDigit = true := by decide

theorem digitChar_inj10 : ∀ a < 10, ∀ b < 10, Nat.digitChar a = Nat.digitChar b → a = b := by
  decide

theorem natRepr_isDigit (n : Nat) : ∀ c ∈ (Nat.repr n).data, c.isDigit = true := by
  intro c hc
  rw [natRepr_data] at hc
  split at hc
  · simp at hc; subst hc; decide
  · simp only [List.mem_reverse, List.mem_map] at hc
    obtain ⟨d, hd, rfl⟩ := hc
    exact digitChar_isDigit d (Nat.digits_lt_base (by norm_num) hd)

theorem natRepr_data_ne_nil (n : Nat) : (Nat.repr n).data ≠ [] := by
  rw [natRepr_data]
  split
  · simp
  · simp only [ne_eq, List.reverse_eq_nil_iff, List.map_eq_nil_iff]
    exact Nat.digits_ne_nil_iff_ne_zero.mpr (by assumption)

theorem map_digitChar_inj :
    ∀ (xs ys : List Nat), (∀ x ∈ xs, x < 10) → (∀ y ∈ ys, y < 10) →
      xs.map Nat.digitChar = ys.map Nat.digitChar → xs = ys := by
  intro xs
  induction xs with
  | nil => intro ys _ _ h; cases ys <;> simp_all
  | cons x xs ih =>
    intro ys h1 h2 h
    cases ys with
    | nil => simp_all
    | cons y ys =>
      simp only [List.map_cons, List.cons.injEq] at h
      have hx := digitChar_inj10 x (h1 x (by simp)) y (h2 y (by simp)) h.1
      have := ih ys (fun z hz => h1 z (by simp [hz])) (fun z hz => h2 z (by simp [hz])) h.2
      simp [hx, this]

theorem natRepr_inj : ∀ m n : Nat, Nat.repr m = Nat.repr n → m = n := by
  intro m n h
  have hd : (Nat.repr m).data = (Nat.repr n).data := by rw [h]
  rw [natRepr_data, natRepr_data] at hd
  have key : ∀ k : Nat, 0 < k → ¬(((Nat.digits 10 k).map Nat.digitChar).reverse = ['0']) := by
    intro k hk hcontra
    have h1 : (Nat.digits 10 k).map Nat.digitChar = ['0'] := by
      have := congrArg List.reverse hcontra
      simpa using this
    rcases he : Nat.digits 10 k with _ | ⟨d, rest⟩
    · rw [he] at h1; simp at h1
    · rw [he] at h1
      simp only [List.map_cons, List.cons.injEq, List.map_eq_nil_iff] at h1
      have hd10 : d < 10 := Nat.digits_lt_base (by norm_num) (by rw [he]; simp)
      have hd0 : d = 0 := digitChar_inj10 d hd10 0 (by norm_num) (by simpa using h1.1)
      have : Nat.ofDigits 10 (Nat.digits 10 k) = k := Nat.ofDigits_digits 10 k
      rw [he, h1.2, hd0] at this
      simp [Nat.ofDigits] at this
      omega
  by_cases hm : m = 0 <;> by_cases hn : n = 0
  · omega
  · rw [if_pos hm, if_neg hn] at hd
    exact absurd hd.symm (key n (by omega))
  · rw [if_neg hm, if_pos hn] at hd
    exact absurd hd (key m (by omega))
  · rw [if_neg hm, if_neg hn] at hd
    have h1 : (Nat.digits 10 m).map Nat.digitChar = (Nat.digits 10 n).map Nat.digitChar := by
      have := congrArg List.reverse hd
      simpa using this
    have h2 := map_digitChar_inj _ _ (fun x hx => Nat.digits_lt_base (by norm_num) hx)
      (fun y hy => Nat.digits_lt_base (by norm_num) hy) h1
    have := congrArg (Nat.ofDigits 10) h2
    rwa [Nat.ofDigits_digits, Nat.ofDigits_digits] at this

theorem funcName_inj : ∀ i j : Nat, funcName i = funcName j → i = j := by
  intro i j h
  have hd : (funcName i).data = (funcName j).data := by rw [h]
  simp only [funcName, String.data_append] at hd
  exact natRepr_inj i j (String.ext (List.append_cancel_left hd))

theorem funcName_data (i : Nat) :
    (funcName i).data = 'f' :: 'u' :: 'n' :: 'c' :: '_' :: (Nat.repr i).data := by
  simp only [funcName, String.data_append]
  rfl

theorem funcName_ne_math (i : Nat) : funcName i ≠ "math" := by
  intro h
  have hd := congrArg String.data h
  rw [funcName_data] at hd
  simp at hd

theorem funcName_ne_datetime (i : Nat) : funcName i ≠ "datetime" := by
  intro h
  have hd := congrArg String.data h
  rw [funcName_data] at hd
  simp at hd

theorem digitRun_eq :
    ∀ (d1 d2 r1 r2 : List Char),
      (∀ c ∈ d1, c.isDigit = true) → (∀ c ∈ d2, c.isDigit = true) →
      (∀ c, r1.head? = some c → c.isDigit = false) →
      (∀ c, r2.head? = some c → c.isDigit = false) →
      d1 ++ r1 = d2 ++ r2 → d1 = d2 ∧ r1 = r2 := by
  intro d1
  induction d1 with
  | nil =>
    intro d2 r1 r2 _ h2 hr1 _ heq
    cases d2 with
    | nil => simpa using heq
    | cons c cs =>
      exfalso
      simp only [List.nil_append] at heq
      have hc1 := hr1 c (by rw [heq]; rfl)
      have hc2 := h2 c (by simp)
      rw [hc2] at hc1
      exact Bool.noConfusion hc1
  | cons c cs ih =>
    intro d2 r1 r2 h1 h2 hr1 hr2 heq
    cases d2 with
    | nil =>
      exfalso
      simp only [List.nil_append] at heq
      have hc1 := hr2 c (by rw [← heq]; rfl)
      have hc2 := h1 c (by simp)
      rw [hc2] at hc1
      exact Bool.noConfusion hc1
    | cons c' cs' =>
      simp only [List.cons_append, List.cons.injEq] at heq
      obtain ⟨rfl, heq2⟩ := heq
      have := ih cs' r1 r2 (fun x hx => h1 x (by simp [hx])) (fun x hx => h2 x (by simp [hx]))
        hr1 hr2 heq2
      simp [this.1, this.2]

theorem reprRun_eq : ∀ (a b : Nat) (X Y : List Char),
    (Nat.repr a).data ++ '(' :: X = (Nat.repr b).data ++ '(' :: Y → a = b ∧ X = Y := by
  intro a b X Y h
  have hr := digitRun_eq _ _ _ _ (natRepr_isDigit a) (natRepr_isDigit b)
    (fun c hc => by simp at hc; subst hc; decide)
    (fun c hc => by simp at hc; subst hc; decide) h
  refine ⟨natRepr_inj a b (String.ext hr.1), ?_⟩
  have := hr.2
  simpa using this


theorem scopeKeys_assoc (sc : Scope) (k : String) (v : ScopeVal) :
    ∀ k', k' ∈ scopeKeys (scopeAssoc sc k v) ↔ k' = k ∨ k' ∈ scopeKeys sc := by
  intro k'
  rw [scopeAssoc]
  split
  · have hk : k ∈ scopeKeys sc := by
      rename_i hany
      rw [List.any_eq_true] at hany
      obtain ⟨p, hp, hpk⟩ := hany
      simp at hpk
      exact hpk ▸ List.mem_map_of_mem _ hp
    have hkeys : scopeKeys (sc.map (fun p => if p.1 = k then (k, v) else p)) = scopeKeys sc := by
      rw [scopeKeys, scopeKeys, List.map_map]
      apply List.map_congr_left
      intro p _
      by_cases hpk : p.1 = k <;> simp [hpk]
    rw [hkeys]
    constructor
    · intro h; exact Or.inr h
    · rintro (rfl | h) <;> [exact hk; exact h]
  · rw [scopeKeys, List.map_append]
    simp [scopeKeys]
    tauto

theorem mem_scopeAssoc_self (sc : Scope) (k : String) (v : ScopeVal) :
    (k, v) ∈ scopeAssoc sc k v := by
  rw [scopeAssoc]
  split
  · rename_i hany
    rw [List.any_eq_true] at hany
    obtain ⟨p, hp, hpk⟩ := hany
    simp at hpk
    exact List.mem_map.mpr ⟨p, hp, by simp [hpk]⟩
  · simp

theorem scopeKeys_merge (a b : Scope) :
    ∀ k, k ∈ scopeKeys (scopeMerge a b) ↔ k ∈ scopeKeys a ∨ k ∈ scopeKeys b := by
  induction b generalizing a with
  | nil => intro k; simp [scopeMerge, scopeKeys]
  | cons p b ih =>
    intro k
    have h1 : scopeMerge a (p :: b) = scopeMerge (scopeAssoc a p.1 p.2) b := rfl
    rw [h1, ih, scopeKeys_assoc]
    simp [scopeKeys]
    tauto

theorem scopeKeys_nodup_assoc (sc : Scope) (k : String) (v : ScopeVal)
    (h : (scopeKeys sc).Nodup) : (scopeKeys (scopeAssoc sc k v)).Nodup := by
  rw [scopeAssoc]
  split
  · have hkeys : scopeKeys (sc.map (fun p => if p.1 = k then (k, v) else p)) = scopeKeys sc := by
      rw [scopeKeys, scopeKeys, List.map_map]
      apply List.map_congr_left
      intro p _
      by_cases hpk : p.1 = k <;> simp [hpk]
    rw [hkeys]; exact h
  · rename_i hany
    simp only [scopeKeys, List.map_append, List.map_cons, List.map_nil]
    rw [List.nodup_append]
    simp only [scopeKeys] at h
    refine ⟨h, by simp, ?_⟩
    intro x hx hx2
    simp only [List.mem_singleton] at hx2
    subst hx2
    simp only [List.any_eq_true, decide_eq_true_eq] at hany
    apply hany
    obtain ⟨p, hp, hpk⟩ := List.mem_map.mp hx
    exact ⟨p, hp, hpk⟩

theorem scopeKeys_nodup_merge (a b : Scope) (h : (scopeKeys a).Nodup) :
    (scopeKeys (scopeMerge a b)).Nodup := by
  induction b generalizing a with
  | nil => exact h
  | cons p b ih =>
    have h1 : scopeMerge a (p :: b) = scopeMerge (scopeAssoc a p.1 p.2) b := rfl
    rw [h1]
    exact ih _ (scopeKeys_nodup_assoc a p.1 p.2 h)


theorem printPython_run_inv : ∀ (n : Nat) (e : Expr) (L : List Expr) (c : Nat) (s : String)
    (sc : Scope) (d : Nat), sizeOf e ≤ n → printPython L e c = some (s, sc, d) →
    c ≤ d ∧ (scopeKeys sc).Nodup ∧ (∀ i, funcName i ∈ scopeKeys sc ↔ c ≤ i ∧ i < d) := by
  intro n
  induction n with
  | zero => intro e L c s sc d hn h; exact absurd hn (by cases e <;> simp_arith)
  | succ n ih =>
    intro e L c s sc d hn h
    cases e with
    | dtLit r =>
      simp only [printPython, Option.some.injEq, Prod.mk.injEq] at h
      obtain ⟨rfl, rfl, rfl⟩ := h
      exact ⟨le_rfl, by simp [scopeKeys],
        fun i => by simp [scopeKeys, funcName_ne_datetime i]⟩
    | lit r =>
      simp only [printPython, Option.some.injEq, Prod.mk.injEq] at h
      obtain ⟨rfl, rfl, rfl⟩ := h
      exact ⟨le_rfl, by simp [scopeKeys], fun i => by simp [scopeKeys]⟩
    | sym nm fs b =>
      simp only [printPython] at h
      split at h <;>
        · simp only [Option.some.injEq, Prod.mk.injEq] at h
          obtain ⟨rfl, rfl, rfl⟩ := h
          exact ⟨le_rfl, by simp [scopeKeys], fun i => by simp [scopeKeys]⟩
    | field ch nm =>
      simp only [printPython] at h
      split at h
      · simp only [Option.some.injEq, Prod.mk.injEq] at h
        obtain ⟨rfl, rfl, rfl⟩ := h
        exact ⟨le_rfl, by simp [scopeKeys], fun i => by simp [scopeKeys]⟩
      · split at h
        · simp at h
        · rename_i s0 sc0 c1 heq
          split at h
          · simp at h
          · simp only [Option.some.injEq, Prod.mk.injEq] at h
            obtain ⟨rfl, rfl, rfl⟩ := h
            exact ih ch L c _ _ _ (by simp_arith at hn; omega) heq
    | arith op l r =>
      simp only [printPython] at h
      split at h
      · simp only [Option.some.injEq, Prod.mk.injEq] at h
        obtain ⟨rfl, rfl, rfl⟩ := h
        exact ⟨le_rfl, by simp [scopeKeys], fun i => by simp [scopeKeys]⟩
      · split at h
        · simp at h
        · rename_i s1 sc1 c1 heq1
          split at h
          · simp at h
          · rename_i s2 sc2 c2 heq2
            simp only [Option.some.injEq, Prod.mk.injEq] at h
            obtain ⟨rfl, rfl, rfl⟩ := h
            have h1 := ih l L c _ _ _ (by simp_arith at hn; omega) heq1
            have h2 := ih r L c1 _ _ _ (by simp_arith at hn; omega) heq2
            refine ⟨le_trans h1.1 h2.1, scopeKeys_nodup_merge _ _ h1.2.1, fun i => ?_⟩
            rw [scopeKeys_merge, h1.2.2 i, h2.2.2 i]
            omega
    | math f ch =>
      simp only [printPython] at h
      split at h
      · simp only [Option.some.injEq, Prod.mk.injEq] at h
        obtain ⟨rfl, rfl, rfl⟩ := h
        exact ⟨le_rfl, by simp [scopeKeys], fun i => by simp [scopeKeys]⟩
      · split at h
        · simp at h
        · rename_i s0 sc0 c1 heq
          simp only [Option.some.injEq, Prod.mk.injEq] at h
          obtain ⟨rfl, rfl, rfl⟩ := h
          have h1 := ih ch L c _ _ _ (by simp_arith at hn; omega) heq
          refine ⟨h1.1, scopeKeys_nodup_merge _ _ h1.2.1, fun i => ?_⟩
          rw [scopeKeys_merge, h1.2.2 i]
          simp [scopeKeys, funcName_ne_math i]
    | date ch =>
      simp only [printPython] at h
      split at h
      · simp only [Option.some.injEq, Prod.mk.injEq] at h
        obtain ⟨rfl, rfl, rfl⟩ := h
        exact ⟨le_rfl, by simp [scopeKeys], fun i => by simp [scopeKeys]⟩
      · split at h
        · simp at h
        · rename_i s0 sc0 c1 heq
          simp only [Option.some.injEq, Prod.mk.injEq] at h
          obtain ⟨rfl, rfl, rfl⟩ := h
          exact ih ch L c _ _ _ (by simp_arith at hn; omega) heq
    | time ch =>
      simp only [printPython] at h
      split at h
      · simp only [Option.some.injEq, Prod.mk.injEq] at h
        obtain ⟨rfl, rfl, rfl⟩ := h
        exact ⟨le_rfl, by simp [scopeKeys], fun i => by simp [scopeKeys]⟩
      · split at h
        · simp at h
        · rename_i s0 sc0 c1 heq
          simp only [Option.some.injEq, Prod.mk.injEq] at h
          obtain ⟨rfl, rfl, rfl⟩ := h
          exact ih ch L c _ _ _ (by simp_arith at hn; omega) heq
    | millisecond ch =>
      simp only [printPython] at h
      split at h
      · simp only [Option.some.injEq, Prod.mk.injEq] at h
        obtain ⟨rfl, rfl, rfl⟩ := h
        exact ⟨le_rfl, by simp [scopeKeys], fun i => by simp [scopeKeys]⟩
      · split at h
        · simp at h
        · rename_i s0 sc0 c1 heq
          simp only [Option.some.injEq, Prod.mk.injEq] at h
          obtain ⟨rfl, rfl, rfl⟩ := h
          exact ih ch L c _ _ _ (by simp_arith at hn; omega) heq
    | dt a ch =>
      simp only [printPython] at h
      split at h
      · simp only [Option.some.injEq, Prod.mk.injEq] at h
        obtain ⟨rfl, rfl, rfl⟩ := h
        exact ⟨le_rfl, by simp [scopeKeys], fun i => by simp [scopeKeys]⟩
      · split at h
        · simp at h
        · rename_i s0 sc0 c1 heq
          simp only [Option.some.injEq, Prod.mk.injEq] at h
          obtain ⟨rfl, rfl, rfl⟩ := h
          exact ih ch L c _ _ _ (by simp_arith at hn; omega) heq
    | map f ch =>
      simp only [printPython] at h
      split at h
      · simp only [Option.some.injEq, Prod.mk.injEq] at h
        obtain ⟨rfl, rfl, rfl⟩ := h
        exact ⟨le_rfl, by simp [scopeKeys], fun i => by simp [scopeKeys]⟩
      · split at h
        · simp at h
        · rename_i s0 sc0 c1 heq
          simp only [Option.some.injEq, Prod.mk.injEq] at h
          obtain ⟨rfl, rfl, rfl⟩ := h
          have h1 := ih ch L c _ _ _ (by simp_arith at hn; omega) heq
          have hfn : ∀ i, (funcName i = funcName c1) ↔ i = c1 :=
            fun i => ⟨funcName_inj i c1, fun hh => by rw [hh]⟩
          refine ⟨by omega, scopeKeys_nodup_assoc _ _ _ h1.2.1, fun i => ?_⟩
          rw [scopeKeys_assoc, hfn i, h1.2.2 i]
          omega
    | bcast cs ss se =>
      simp only [printPython] at h
      split at h
      · simp only [Option.some.injEq, Prod.mk.injEq] at h
        obtain ⟨rfl, rfl, rfl⟩ := h
        exact ⟨le_rfl, by simp [scopeKeys], fun i => by simp [scopeKeys]⟩
      · simp at h
    | node t b cs =>
      simp only [printPython] at h
      split at h
      · simp only [Option.some.injEq, Prod.mk.injEq] at h
        obtain ⟨rfl, rfl, rfl⟩ := h
        exact ⟨le_rfl, by simp [scopeKeys], fun i => by simp [scopeKeys]⟩
      · simp at h


theorem printPython_noMap : ∀ (n : Nat) (e : Expr) (L : List Expr) (c : Nat) (s : String)
    (sc : Scope) (d c' : Nat), sizeOf e ≤ n → e.hasMap = false →
    printPython L e c = some (s, sc, d) →
    d = c ∧ printPython L e c' = some (s, sc, c') := by
  intro n
  induction n with
  | zero => intro e L c s sc d c' hn hm h; exact absurd hn (by cases e <;> simp_arith)
  | succ n ih =>
    intro e L c s sc d c' hn hm h
    cases e with
    | dtLit r =>
      simp only [printPython, Option.some.injEq, Prod.mk.injEq] at h
      obtain ⟨rfl, rfl, rfl⟩ := h
      exact ⟨rfl, rfl⟩
    | lit r =>
      simp only [printPython, Option.some.injEq, Prod.mk.injEq] at h
      obtain ⟨rfl, rfl, rfl⟩ := h
      exact ⟨rfl, rfl⟩
    | sym nm fs b =>
      simp only [printPython] at h ⊢
      split at h <;>
        · simp only [Option.some.injEq, Prod.mk.injEq] at h
          obtain ⟨rfl, rfl, rfl⟩ := h
          simp_all
    | field ch nm =>
      rw [Expr.hasMap] at hm
      simp only [printPython] at h ⊢
      split at h
      · rename_i hleaf
        simp only [Option.some.injEq, Prod.mk.injEq] at h
        obtain ⟨rfl, rfl, rfl⟩ := h
        rw [if_pos hleaf]
        exact ⟨rfl, rfl⟩
      · rename_i hleaf
        split at h
        · simp at h
        · rename_i s0 sc0 c1 heq
          split at h
          · simp at h
          · rename_i i0 hidx
            simp only [Option.some.injEq, Prod.mk.injEq] at h
            obtain ⟨rfl, rfl, rfl⟩ := h
            have hch := ih ch L c _ _ _ c' (by simp_arith at hn; omega) hm heq
            rw [if_neg hleaf, hch.2]
            exact ⟨hch.1, rfl⟩
    | arith op l r =>
      rw [Expr.hasMap] at hm
      rw [Bool.or_eq_false_iff] at hm
      simp only [printPython] at h ⊢
      split at h
      · rename_i hleaf
        simp only [Option.some.injEq, Prod.mk.injEq] at h
        obtain ⟨rfl, rfl, rfl⟩ := h
        rw [if_pos hleaf]
        exact ⟨rfl, rfl⟩
      · rename_i hleaf
        split at h
        · simp at h
        · rename_i s1 sc1 c1 heq1
          split at h
          · simp at h
          · rename_i s2 sc2 c2 heq2
            simp only [Option.some.injEq, Prod.mk.injEq] at h
            obtain ⟨rfl, rfl, rfl⟩ := h
            have h1 := ih l L c _ _ _ c' (by simp_arith at hn; omega) hm.1 heq1
            have h2 := ih r L c1 _ _ _ c' (by simp_arith at hn; omega) hm.2 heq2
            rw [if_neg hleaf]
            refine ⟨h2.1.trans h1.1, ?_⟩
            simp only [h1.2]
            simp only [h2.2]
    | math f ch =>
      rw [Expr.hasMap] at hm
      simp only [printPython] at h ⊢
      split at h
      · rename_i hleaf
        simp only [Option.some.injEq, Prod.mk.injEq] at h
        obtain ⟨rfl, rfl, rfl⟩ := h
        rw [if_pos hleaf]
        exact ⟨rfl, rfl⟩
      · rename_i hleaf
        split at h
        · simp at h
        · rename_i s0 sc0 c1 heq
          simp only [Option.some.injEq, Prod.mk.injEq] at h
          obtain ⟨rfl, rfl, rfl⟩ := h
          have hch := ih ch L c _ _ _ c' (by simp_arith at hn; omega) hm heq
          rw [if_neg hleaf, hch.2]
          exact ⟨hch.1, rfl⟩
    | date ch =>
      rw [Expr.hasMap] at hm
      simp only [printPython] at h ⊢
      split at h
      · rename_i hleaf
        simp only [Option.some.injEq, Prod.mk.injEq] at h
        obtain ⟨rfl, rfl, rfl⟩ := h
        rw [if_pos hleaf]
        exact ⟨rfl, rfl⟩
      · rename_i hleaf
        split at h
        · simp at h
        · rename_i s0 sc0 c1 heq
          simp only [Option.some.injEq, Prod.mk.injEq] at h
          obtain ⟨rfl, rfl, rfl⟩ := h
          have hch := ih ch L c _ _ _ c' (by simp_arith at hn; omega) hm heq
          rw [if_neg hleaf, hch.2]
          exact ⟨hch.1, rfl⟩
    | time ch =>
      rw [Expr.hasMap] at hm
      simp only [printPython] at h ⊢
      split at h
      · rename_i hleaf
        simp only [Option.some.injEq, Prod.mk.injEq] at h
        obtain ⟨rfl, rfl, rfl⟩ := h
        rw [if_pos hleaf]
        exact ⟨rfl, rfl⟩
      · rename_i hleaf
        split at h
        · simp at h
        · rename_i s0 sc0 c1 heq
          simp only [Option.some.injEq, Prod.mk.injEq] at h
          obtain ⟨rfl, rfl, rfl⟩ := h
          have hch := ih ch L c _ _ _ c' (by simp_arith at hn; omega) hm heq
          rw [if_neg hleaf, hch.2]
          exact ⟨hch.1, rfl⟩
    | millisecond ch =>
      rw [Expr.hasMap] at hm
      simp only [printPython] at h ⊢
      split at h
      · rename_i hleaf
        simp only [Option.some.injEq, Prod.mk.injEq] at h
        obtain ⟨rfl, rfl, rfl⟩ := h
        rw [if_pos hleaf]
        exact ⟨rfl, rfl⟩
      · rename_i hleaf
        split at h
        · simp at h
        · rename_i s0 sc0 c1 heq
          simp only [Option.some.injEq, Prod.mk.injEq] at h
          obtain ⟨rfl, rfl, rfl⟩ := h
          have hch := ih ch L c _ _ _ c' (by simp_arith at hn; omega) hm heq
          rw [if_neg hleaf, hch.2]
          exact ⟨hch.1, rfl⟩
    | dt a ch =>
      rw [Expr.hasMap] at hm
      simp only [printPython] at h ⊢
      split at h
      · rename_i hleaf
        simp only [Option.some.injEq, Prod.mk.injEq] at h
        obtain ⟨rfl, rfl, rfl⟩ := h
        rw [if_pos hleaf]
        exact ⟨rfl, rfl⟩
      · rename_i hleaf
        split at h
        · simp at h
        · rename_i s0 sc0 c1 heq
          simp only [Option.some.injEq, Prod.mk.injEq] at h
          obtain ⟨rfl, rfl, rfl⟩ := h
          have hch := ih ch L c _ _ _ c' (by simp_arith at hn; omega) hm heq
          rw [if_neg hleaf, hch.2]
          exact ⟨hch.1, rfl⟩
    | map f ch => rw [Expr.hasMap] at hm; exact Bool.noConfusion hm
    | bcast cs ss se =>
      simp only [printPython] at h ⊢
      split at h
      · rename_i hleaf
        simp only [Option.some.injEq, Prod.mk.injEq] at h
        obtain ⟨rfl, rfl, rfl⟩ := h
        rw [if_pos hleaf]
        exact ⟨rfl, rfl⟩
      · simp at h
    | node t b cs =>
      simp only [printPython] at h ⊢
      split at h
      · rename_i hleaf
        simp only [Option.some.injEq, Prod.mk.injEq] at h
        obtain ⟨rfl, rfl, rfl⟩ := h
        rw [if_pos hleaf]
        exact ⟨rfl, rfl⟩
      · simp at h


theorem stripDigits_append (l1 l2 : List Char) :
    stripDigits (l1 ++ l2) = stripDigits l1 ++ stripDigits l2 := by
  simp [stripDigits]

theorem mem_stripDigits_iff {a : Char} (h : a.isDigit = false) (l : List Char) :
    a ∈ stripDigits l ↔ a ∈ l := by
  rw [stripDigits, List.mem_filter]
  simp [h]

theorem stripDigits_natRepr (i : Nat) : stripDigits (Nat.repr i).data = [] := by
  rw [stripDigits, List.filter_eq_nil_iff]
  intro c hc
  simp [natRepr_isDigit i c hc]

theorem stripDigits_cons (a : Char) (l : List Char) :
    stripDigits (a :: l) = if a.isDigit then stripDigits l else a :: stripDigits l := by
  rw [stripDigits, List.filter_cons]
  by_cases hd : a.isDigit <;> simp [hd, stripDigits]

theorem stripDigits_funcName (i : Nat) :
    stripDigits (funcName i).data = ['f', 'u', 'n', 'c', '_'] := by
  rw [funcName_data]
  simp [stripDigits_cons, stripDigits_natRepr i,
    show ('f').isDigit = false from rfl, show ('u').isDigit = false from rfl,
    show ('n').isDigit = false from rfl, show ('c').isDigit = false from rfl,
    show ('_').isDigit = false from rfl]

theorem stripDigits_paren (s s' : String) (h : stripDigits s.data = stripDigits s'.data) :
    stripDigits (parenthesize s).data = stripDigits (parenthesize s').data := by
  have hsp : (' ' ∈ s.data) ↔ (' ' ∈ s'.data) := by
    rw [← mem_stripDigits_iff (by decide) s.data, ← mem_stripDigits_iff (by decide) s'.data, h]
  rw [parenthesize, parenthesize]
  by_cases hs : ' ' ∈ s.data
  · rw [if_pos hs, if_pos (hsp.mp hs)]
    simp only [String.data_append, stripDigits_append, h]
  · rw [if_neg hs, if_neg (fun hh => hs (hsp.mpr hh))]
    exact h


theorem printPython_strip : ∀ (n : Nat) (e : Expr) (L : List Expr) (c c' : Nat)
    (s s' : String) (sc sc' : Scope) (d d' : Nat),
    sizeOf e ≤ n → printPython L e c = some (s, sc, d) →
    printPython L e c' = some (s', sc', d') →
    stripDigits s.data = stripDigits s'.data ∧ d - c = d' - c' := by
  intro n
  induction n with
  | zero => intro e L c c' s s' sc sc' d d' hn h h'; exact absurd hn (by cases e <;> simp_arith)
  | succ n ih =>
    intro e L c c' s s' sc sc' d d' hn h h'
    cases e with
    | dtLit r =>
      simp only [printPython, Option.some.injEq, Prod.mk.injEq] at h h'
      obtain ⟨rfl, rfl, rfl⟩ := h
      obtain ⟨rfl, rfl, rfl⟩ := h'
      exact ⟨rfl, by omega⟩
    | lit r =>
      simp only [printPython, Option.some.injEq, Prod.mk.injEq] at h h'
      obtain ⟨rfl, rfl, rfl⟩ := h
      obtain ⟨rfl, rfl, rfl⟩ := h'
      exact ⟨rfl, by omega⟩
    | sym nm fs b =>
      simp only [printPython] at h h'
      split at h
      · rename_i hleaf
        rw [if_pos hleaf] at h'
        simp only [Option.some.injEq, Prod.mk.injEq] at h h'
        obtain ⟨rfl, rfl, rfl⟩ := h
        obtain ⟨rfl, rfl, rfl⟩ := h'
        exact ⟨rfl, by omega⟩
      · rename_i hleaf
        rw [if_neg hleaf] at h'
        simp only [Option.some.injEq, Prod.mk.injEq] at h h'
        obtain ⟨rfl, rfl, rfl⟩ := h
        obtain ⟨rfl, rfl, rfl⟩ := h'
        exact ⟨rfl, by omega⟩
    | field ch nm =>
      simp only [printPython] at h h'
      split at h
      · rename_i hleaf
        rw [if_pos hleaf] at h'
        simp only [Option.some.injEq, Prod.mk.injEq] at h h'
        obtain ⟨rfl, rfl, rfl⟩ := h
        obtain ⟨rfl, rfl, rfl⟩ := h'
        exact ⟨rfl, by omega⟩
      · rename_i hleaf
        rw [if_neg hleaf] at h'
        split at h
        · simp at h
        · rename_i s0 sc0 c1 heq
          split at h
          · simp at h
          · rename_i i0 hidx
            simp only [Option.some.injEq, Prod.mk.injEq] at h
            obtain ⟨rfl, rfl, rfl⟩ := h
            split at h'
            · simp at h'
            · rename_i s0' sc0' c1' heq'
              rw [hidx] at h'
              simp only [Option.some.injEq, Prod.mk.injEq] at h'
              obtain ⟨rfl, rfl, rfl⟩ := h'
              have hch := ih ch L c c' _ _ _ _ _ _ (by simp_arith at hn; omega) heq heq'
              have hp := stripDigits_paren s0 s0' hch.1
              refine ⟨?_, hch.2⟩
              simp only [String.data_append, stripDigits_append, hp]
    | arith op l r =>
      simp only [printPython] at h h'
      split at h
      · rename_i hleaf
        rw [if_pos hleaf] at h'
        simp only [Option.some.injEq, Prod.mk.injEq] at h h'
        obtain ⟨rfl, rfl, rfl⟩ := h
        obtain ⟨rfl, rfl, rfl⟩ := h'
        exact ⟨rfl, by omega⟩
      · rename_i hleaf
        rw [if_neg hleaf] at h'
        split at h
        · simp at h
        · rename_i s1 sc1 c1 heq1
          split at h
          · simp at h
          · rename_i s2 sc2 c2 heq2
            simp only [Option.some.injEq, Prod.mk.injEq] at h
            obtain ⟨rfl, rfl, rfl⟩ := h
            split at h'
            · simp at h'
            · rename_i s1' sc1' c1' heq1'
              split at h'
              · simp at h'
              · rename_i s2' sc2' c2' heq2'
                simp only [Option.some.injEq, Prod.mk.injEq] at h'
                obtain ⟨rfl, rfl, rfl⟩ := h'
                have hl := ih l L c c' _ _ _ _ _ _ (by simp_arith at hn; omega) heq1 heq1'
                have hr := ih r L c1 c1' _ _ _ _ _ _ (by simp_arith at hn; omega) heq2 heq2'
                have hm1 := (printPython_run_inv (sizeOf l) l L c _ _ _ le_rfl heq1).1
                have hm2 := (printPython_run_inv (sizeOf r) r L c1 _ _ _ le_rfl heq2).1
                have hm1' := (printPython_run_inv (sizeOf l) l L c' _ _ _ le_rfl heq1').1
                have hm2' := (printPython_run_inv (sizeOf r) r L c1' _ _ _ le_rfl heq2').1
                have hp1 := stripDigits_paren s1 s1' hl.1
                have hp2 := stripDigits_paren s2 s2' hr.1
                refine ⟨?_, ?_⟩
                · simp only [String.data_append, stripDigits_append, hp1, hp2]
                · have := hl.2
                  have := hr.2
                  omega
    | math f ch =>
      simp only [printPython] at h h'
      split at h
      · rename_i hleaf
        rw [if_pos hleaf] at h'
        simp only [Option.some.injEq, Prod.mk.injEq] at h h'
        obtain ⟨rfl, rfl, rfl⟩ := h
        obtain ⟨rfl, rfl, rfl⟩ := h'
        exact ⟨rfl, by omega⟩
      · rename_i hleaf
        rw [if_neg hleaf] at h'
        split at h
        · simp at h
        · rename_i s0 sc0 c1 heq
          simp only [Option.some.injEq, Prod.mk.injEq] at h
          obtain ⟨rfl, rfl, rfl⟩ := h
          split at h'
          · simp at h'
          · rename_i s0' sc0' c1' heq'
            simp only [Option.some.injEq, Prod.mk.injEq] at h'
            obtain ⟨rfl, rfl, rfl⟩ := h'
            have hch := ih ch L c c' _ _ _ _ _ _ (by simp_arith at hn; omega) heq heq'
            refine ⟨?_, hch.2⟩
            simp only [String.data_append, stripDigits_append, hch.1]
    | date ch =>
      simp only [printPython] at h h'
      split at h
      · rename_i hleaf
        rw [if_pos hleaf] at h'
        simp only [Option.some.injEq, Prod.mk.injEq] at h h'
        obtain ⟨rfl, rfl, rfl⟩ := h
        obtain ⟨rfl, rfl, rfl⟩ := h'
        exact ⟨rfl, by omega⟩
      · rename_i hleaf
        rw [if_neg hleaf] at h'
        split at h
        · simp at h
        · rename_i s0 sc0 c1 heq
          simp only [Option.some.injEq, Prod.mk.injEq] at h
          obtain ⟨rfl, rfl, rfl⟩ := h
          split at h'
          · simp at h'
          · rename_i s0' sc0' c1' heq'
            simp only [Option.some.injEq, Prod.mk.injEq] at h'
            obtain ⟨rfl, rfl, rfl⟩ := h'
            have hch := ih ch L c c' _ _ _ _ _ _ (by simp_arith at hn; omega) heq heq'
            have hp := stripDigits_paren s0 s0' hch.1
            refine ⟨?_, hch.2⟩
            simp only [String.data_append, stripDigits_append, hp]
    | time ch =>
      simp only [printPython] at h h'
      split at h
      · rename_i hleaf
        rw [if_pos hleaf] at h'
        simp only [Option.some.injEq, Prod.mk.injEq] at h h'
        obtain ⟨rfl, rfl, rfl⟩ := h
        obtain ⟨rfl, rfl, rfl⟩ := h'
        exact ⟨rfl, by omega⟩
      · rename_i hleaf
        rw [if_neg hleaf] at h'
        split at h
        · simp at h
        · rename_i s0 sc0 c1 heq
          simp only [Option.some.injEq, Prod.mk.injEq] at h
          obtain ⟨rfl, rfl, rfl⟩ := h
          split at h'
          · simp at h'
          · rename_i s0' sc0' c1' heq'
            simp only [Option.some.injEq, Prod.mk.injEq] at h'
            obtain ⟨rfl, rfl, rfl⟩ := h'
            have hch := ih ch L c c' _ _ _ _ _ _ (by simp_arith at hn; omega) heq heq'
            have hp := stripDigits_paren s0 s0' hch.1
            refine ⟨?_, hch.2⟩
            simp only [String.data_append, stripDigits_append, hp]
    | millisecond ch =>
      simp only [printPython] at h h'
      split at h
      · rename_i hleaf
        rw [if_pos hleaf] at h'
        simp only [Option.some.injEq, Prod.mk.injEq] at h h'
        obtain ⟨rfl, rfl, rfl⟩ := h
        obtain ⟨rfl, rfl, rfl⟩ := h'
        exact ⟨rfl, by omega⟩
      · rename_i hleaf
        rw [if_neg hleaf] at h'
        split at h
        · simp at h
        · rename_i s0 sc0 c1 heq
          simp only [Option.some.injEq, Prod.mk.injEq] at h
          obtain ⟨rfl, rfl, rfl⟩ := h
          split at h'
          · simp at h'
          · rename_i s0' sc0' c1' heq'
            simp only [Option.some.injEq, Prod.mk.injEq] at h'
            obtain ⟨rfl, rfl, rfl⟩ := h'
            have hch := ih ch L c c' _ _ _ _ _ _ (by simp_arith at hn; omega) heq heq'
            have hp := stripDigits_paren s0 s0' hch.1
            refine ⟨?_, hch.2⟩
            simp only [String.data_append, stripDigits_append, hp]
    | dt a ch =>
      simp only [printPython] at h h'
      split at h
      · rename_i hleaf
        rw [if_pos hleaf] at h'
        simp only [Option.some.injEq, Prod.mk.injEq] at h h'
        obtain ⟨rfl, rfl, rfl⟩ := h
        obtain ⟨rfl, rfl, rfl⟩ := h'
        exact ⟨rfl, by omega⟩
      · rename_i hleaf
        rw [if_neg hleaf] at h'
        split at h
        · simp at h
        · rename_i s0 sc0 c1 heq
          simp only [Option.some.injEq, Prod.mk.injEq] at h
          obtain ⟨rfl, rfl, rfl⟩ := h
          split at h'
          · simp at h'
          · rename_i s0' sc0' c1' heq'
            simp only [Option.some.injEq, Prod.mk.injEq] at h'
            obtain ⟨rfl, rfl, rfl⟩ := h'
            have hch := ih ch L c c' _ _ _ _ _ _ (by simp_arith at hn; omega) heq heq'
            have hp := stripDigits_paren s0 s0' hch.1
            refine ⟨?_, hch.2⟩
            simp only [String.data_append, stripDigits_append, hp]
    | map f ch =>
      simp only [printPython] at h h'
      split at h
      · rename_i hleaf
        rw [if_pos hleaf] at h'
        simp only [Option.some.injEq, Prod.mk.injEq] at h h'
        obtain ⟨rfl, rfl, rfl⟩ := h
        obtain ⟨rfl, rfl, rfl⟩ := h'
        exact ⟨rfl, by omega⟩
      · rename_i hleaf
        rw [if_neg hleaf] at h'
        split at h
        · simp at h
        · rename_i s0 sc0 c1 heq
          simp only [Option.some.injEq, Prod.mk.injEq] at h
          obtain ⟨rfl, rfl, rfl⟩ := h
          split at h'
          · simp at h'
          · rename_i s0' sc0' c1' heq'
            simp only [Option.some.injEq, Prod.mk.injEq] at h'
            obtain ⟨rfl, rfl, rfl⟩ := h'
            have hch := ih ch L c c' _ _ _ _ _ _ (by simp_arith at hn; omega) heq heq'
            have hm1 := (printPython_run_inv (sizeOf ch) ch L c _ _ _ le_rfl heq).1
            have hm1' := (printPython_run_inv (sizeOf ch) ch L c' _ _ _ le_rfl heq').1
            refine ⟨?_, by have := hch.2; omega⟩
            simp only [String.data_append, stripDigits_append, hch.1,
              stripDigits_funcName c1, stripDigits_funcName c1']
    | bcast cs ss se =>
      simp only [printPython] at h h'
      split at h
      · rename_i hleaf
        rw [if_pos hleaf] at h'
        simp only [Option.some.injEq, Prod.mk.injEq] at h h'
        obtain ⟨rfl, rfl, rfl⟩ := h
        obtain ⟨rfl, rfl, rfl⟩ := h'
        exact ⟨rfl, by omega⟩
      · simp at h
    | node t b cs =>
      simp only [printPython] at h h'
      split at h
      · rename_i hleaf
        rw [if_pos hleaf] at h'
        simp only [Option.some.injEq, Prod.mk.injEq] at h h'
        obtain ⟨rfl, rfl, rfl⟩ := h
        obtain ⟨rfl, rfl, rfl⟩ := h'
        exact ⟨rfl, by omega⟩
      · simp at h


theorem space_mem_iff_of_strip {a b : List Char} (h : stripDigits a = stripDigits b) :
    (' ' ∈ a) ↔ (' ' ∈ b) := by
  rw [← mem_stripDigits_iff (by decide) a, ← mem_stripDigits_iff (by decide) b, h]

theorem paren_data_of_space {s0 : String} (h : ' ' ∈ s0.data) :
    (parenthesize s0).data = '(' :: (s0.data ++ [')']) := by
  rw [parenthesize, if_pos h]
  simp [String.data_append]

theorem paren_data_of_not_space {s0 : String} (h : ¬ ' ' ∈ s0.data) :
    (parenthesize s0).data = s0.data := by
  rw [parenthesize, if_neg h]

theorem paren_peel :
    ∀ (s0 s0' : String) (t t' : List Char),
      ((' ' ∈ s0.data) ↔ (' ' ∈ s0'.data)) →
      (parenthesize s0).data ++ t = (parenthesize s0').data ++ t' →
      ∃ u u', s0.data ++ u = s0'.data ++ u' ∧ (s0.data = s0'.data → u = u' → t = t') := by
  intro s0 s0' t t' hsp h
  by_cases hs : ' ' ∈ s0.data
  · rw [paren_data_of_space hs, paren_data_of_space (hsp.mp hs)] at h
    simp only [List.cons_append, List.cons.injEq, true_and, List.append_assoc] at h
    refine ⟨[')'] ++ t, [')'] ++ t', by simpa using h, ?_⟩
    intro _ hu
    simpa using hu
  · rw [paren_data_of_not_space hs, paren_data_of_not_space (fun hh => hs (hsp.mpr hh))] at h
    exact ⟨t, t', h, fun _ hu => hu⟩


theorem printPython_inj : ∀ (n : Nat) (e : Expr) (L : List Expr) (c c' : Nat)
    (s s' : String) (sc sc' : Scope) (d d' : Nat) (t t' : List Char),
    sizeOf e ≤ n → printPython L e c = some (s, sc, d) →
    printPython L e c' = some (s', sc', d') →
    s.data ++ t = s'.data ++ t' →
    s.data = s'.data ∧ t = t' ∧ (c < d → c = c') := by
  intro n
  induction n with
  | zero => intro e L c c' s s' sc sc' d d' t t' hn _ _ _
            exact absurd hn (by cases e <;> simp_arith)
  | succ n ih =>
    intro e L c c' s s' sc sc' d d' t t' hn h h' hts
    cases e with
    | dtLit r =>
      simp only [printPython, Option.some.injEq, Prod.mk.injEq] at h h'
      obtain ⟨rfl, rfl, rfl⟩ := h
      obtain ⟨rfl, rfl, rfl⟩ := h'
      exact ⟨rfl, List.append_cancel_left hts, by omega⟩
    | lit r =>
      simp only [printPython, Option.some.injEq, Prod.mk.injEq] at h h'
      obtain ⟨rfl, rfl, rfl⟩ := h
      obtain ⟨rfl, rfl, rfl⟩ := h'
      exact ⟨rfl, List.append_cancel_left hts, by omega⟩
    | sym nm fs b =>
      simp only [printPython] at h h'
      split at h
      · rename_i hleaf
        rw [if_pos hleaf] at h'
        simp only [Option.some.injEq, Prod.mk.injEq] at h h'
        obtain ⟨rfl, rfl, rfl⟩ := h
        obtain ⟨rfl, rfl, rfl⟩ := h'
        exact ⟨rfl, List.append_cancel_left hts, by omega⟩
      · rename_i hleaf
        rw [if_neg hleaf] at h'
        simp only [Option.some.injEq, Prod.mk.injEq] at h h'
        obtain ⟨rfl, rfl, rfl⟩ := h
        obtain ⟨rfl, rfl, rfl⟩ := h'
        exact ⟨rfl, List.append_cancel_left hts, by omega⟩
    | field ch nm =>
      simp only [printPython] at h h'
      split at h
      · rename_i hleaf
        rw [if_pos hleaf] at h'
        simp only [Option.some.injEq, Prod.mk.injEq] at h h'
        obtain ⟨rfl, rfl, rfl⟩ := h
        obtain ⟨rfl, rfl, rfl⟩ := h'
        exact ⟨rfl, List.append_cancel_left hts, by omega⟩
      · rename_i hleaf
        rw [if_neg hleaf] at h'
        split at h
        · simp at h
        · rename_i s0 sc0 c1 heq
          split at h
          · simp at h
          · rename_i i0 hidx
            simp only [Option.some.injEq, Prod.mk.injEq] at h
            obtain ⟨rfl, rfl, rfl⟩ := h
            split at h'
            · simp at h'
            · rename_i s0' sc0' c1' heq'
              rw [hidx] at h'
              simp only [Option.some.injEq, Prod.mk.injEq] at h'
              obtain ⟨rfl, rfl, rfl⟩ := h'
              have hstr := printPython_strip (sizeOf ch) ch L c c' _ _ _ _ _ _ le_rfl heq heq'
              simp only [String.data_append, List.append_assoc] at hts
              obtain ⟨u, u', hu, hcont⟩ :=
                paren_peel s0 s0' _ _ (space_mem_iff_of_strip hstr.1) hts
              obtain ⟨hdata, hueq, hcc⟩ :=
                ih ch L c c' _ _ _ _ _ _ _ _ (by simp_arith at hn; omega) heq heq' hu
              have ht := hcont hdata hueq
              have ht2 : t = t' :=
                List.append_cancel_left (List.append_cancel_left (List.append_cancel_left ht))
              have hs0 : s0 = s0' := String.ext hdata
              subst hs0
              exact ⟨rfl, ht2, fun hc => hcc hc⟩
    | arith op l r =>
      simp only [printPython] at h h'
      split at h
      · rename_i hleaf
        rw [if_pos hleaf] at h'
        simp only [Option.some.injEq, Prod.mk.injEq] at h h'
        obtain ⟨rfl, rfl, rfl⟩ := h
        obtain ⟨rfl, rfl, rfl⟩ := h'
        exact ⟨rfl, List.append_cancel_left hts, by omega⟩
      · rename_i hleaf
        rw [if_neg hleaf] at h'
        split at h
        · simp at h
        · rename_i s1 sc1 c1 heq1
          split at h
          · simp at h
          · rename_i s2 sc2 c2 heq2
            simp only [Option.some.injEq, Prod.mk.injEq] at h
            obtain ⟨rfl, rfl, rfl⟩ := h
            split at h'
            · simp at h'
            · rename_i s1' sc1' c1' heq1'
              split at h'
              · simp at h'
              · rename_i s2' sc2' c2' heq2'
                simp only [Option.some.injEq, Prod.mk.injEq] at h'
                obtain ⟨rfl, rfl, rfl⟩ := h'
                have hstr1 := printPython_strip (sizeOf l) l L c c' _ _ _ _ _ _ le_rfl heq1 heq1'
                have hstr2 := printPython_strip (sizeOf r) r L c1 c1' _ _ _ _ _ _ le_rfl heq2 heq2'
                simp only [String.data_append, List.append_assoc] at hts
                obtain ⟨u, u', hu, hcont⟩ :=
                  paren_peel s1 s1' _ _ (space_mem_iff_of_strip hstr1.1) hts
                obtain ⟨hdata1, hueq, hcc1⟩ :=
                  ih l L c c' _ _ _ _ _ _ _ _ (by simp_arith at hn; omega) heq1 heq1' hu
                have ht := hcont hdata1 hueq
                have ht2 : (parenthesize s2).data ++ t = (parenthesize s2').data ++ t' :=
                  List.append_cancel_left (List.append_cancel_left (List.append_cancel_left ht))
                obtain ⟨v, v', hv, hcont2⟩ :=
                  paren_peel s2 s2' _ _ (space_mem_iff_of_strip hstr2.1) ht2
                obtain ⟨hdata2, hveq, hcc2⟩ :=
                  ih r L c1 c1' _ _ _ _ _ _ _ _ (by simp_arith at hn; omega) heq2 heq2' hv
                have ht3 := hcont2 hdata2 hveq
                have hs1 : s1 = s1' := String.ext hdata1
                have hs2 : s2 = s2' := String.ext hdata2
                subst hs1
                subst hs2
                refine ⟨rfl, ht3, fun hc => ?_⟩
                have hm1 := (printPython_run_inv (sizeOf l) l L c _ _ _ le_rfl heq1).1
                have hm1' := (printPython_run_inv (sizeOf l) l L c' _ _ _ le_rfl heq1').1
                have hm2 := (printPython_run_inv (sizeOf r) r L c1 _ _ _ le_rfl heq2).1
                have hm2' := (printPython_run_inv (sizeOf r) r L c1' _ _ _ le_rfl heq2').1
                by_cases hcl : c < c1
                · exact hcc1 hcl
                · have hd1 := hstr1.2
                  have hc2 := hcc2 (by omega)
                  omega
    | math f ch =>
      simp only [printPython] at h h'
      split at h
      · rename_i hleaf
        rw [if_pos hleaf] at h'
        simp only [Option.some.injEq, Prod.mk.injEq] at h h'
        obtain ⟨rfl, rfl, rfl⟩ := h
        obtain ⟨rfl, rfl, rfl⟩ := h'
        exact ⟨rfl, List.append_cancel_left hts, by omega⟩
      · rename_i hleaf
        rw [if_neg hleaf] at h'
        split at h
        · simp at h
        · rename_i s0 sc0 c1 heq
          simp only [Option.some.injEq, Prod.mk.injEq] at h
          obtain ⟨rfl, rfl, rfl⟩ := h
          split at h'
          · simp at h'
          · rename_i s0' sc0' c1' heq'
            simp only [Option.some.injEq, Prod.mk.injEq] at h'
            obtain ⟨rfl, rfl, rfl⟩ := h'
            simp only [String.data_append, List.append_assoc] at hts
            have hts2 : s0.data ++ (")".data ++ t) = s0'.data ++ (")".data ++ t') :=
              List.append_cancel_left (List.append_cancel_left (List.append_cancel_left hts))
            obtain ⟨hdata, hueq, hcc⟩ :=
              ih ch L c c' _ _ _ _ _ _ _ _ (by simp_arith at hn; omega) heq heq' hts2
            have ht2 : t = t' := List.append_cancel_left hueq
            have hs0 : s0 = s0' := String.ext hdata
            subst hs0
            exact ⟨rfl, ht2, fun hc => hcc hc⟩
    | date ch =>
      simp only [printPython] at h h'
      split at h
      · rename_i hleaf
        rw [if_pos hleaf] at h'
        simp only [Option.some.injEq, Prod.mk.injEq] at h h'
        obtain ⟨rfl, rfl, rfl⟩ := h
        obtain ⟨rfl, rfl, rfl⟩ := h'
        exact ⟨rfl, List.append_cancel_left hts, by omega⟩
      · rename_i hleaf
        rw [if_neg hleaf] at h'
        split at h
        · simp at h
        · rename_i s0 sc0 c1 heq
          simp only [Option.some.injEq, Prod.mk.injEq] at h
          obtain ⟨rfl, rfl, rfl⟩ := h
          split at h'
          · simp at h'
          · rename_i s0' sc0' c1' heq'
            simp only [Option.some.injEq, Prod.mk.injEq] at h'
            obtain ⟨rfl, rfl, rfl⟩ := h'
            have hstr := printPython_strip (sizeOf ch) ch L c c' _ _ _ _ _ _ le_rfl heq heq'
            simp only [String.data_append, List.append_assoc] at hts
            obtain ⟨u, u', hu, hcont⟩ :=
              paren_peel s0 s0' _ _ (space_mem_iff_of_strip hstr.1) hts
            obtain ⟨hdata, hueq, hcc⟩ :=
              ih ch L c c' _ _ _ _ _ _ _ _ (by simp_arith at hn; omega) heq heq' hu
            have ht := hcont hdata hueq
            have ht2 : t = t' := List.append_cancel_left ht
            have hs0 : s0 = s0' := String.ext hdata
            subst hs0
            exact ⟨rfl, ht2, fun hc => hcc hc⟩
    | time ch =>
      simp only [printPython] at h h'
      split at h
      · rename_i hleaf
        rw [if_pos hleaf] at h'
        simp only [Option.some.injEq, Prod.mk.injEq] at h h'
        obtain ⟨rfl, rfl, rfl⟩ := h
        obtain ⟨rfl, rfl, rfl⟩ := h'
        exact ⟨rfl, List.append_cancel_left hts, by omega⟩
      · rename_i hleaf
        rw [if_neg hleaf] at h'
        split at h
        · simp at h
        · rename_i s0 sc0 c1 heq
          simp only [Option.some.injEq, Prod.mk.injEq] at h
          obtain ⟨rfl, rfl, rfl⟩ := h
          split at h'
          · simp at h'
          · rename_i s0' sc0' c1' heq'
            simp only [Option.some.injEq, Prod.mk.injEq] at h'
            obtain ⟨rfl, rfl, rfl⟩ := h'
            have hstr := printPython_strip (sizeOf ch) ch L c c' _ _ _ _ _ _ le_rfl heq heq'
            simp only [String.data_append, List.append_assoc] at hts
            obtain ⟨u, u', hu, hcont⟩ :=
              paren_peel s0 s0' _ _ (space_mem_iff_of_strip hstr.1) hts
            obtain ⟨hdata, hueq, hcc⟩ :=
              ih ch L c c' _ _ _ _ _ _ _ _ (by simp_arith at hn; omega) heq heq' hu
            have ht := hcont hdata hueq
            have ht2 : t = t' := List.append_cancel_left ht
            have hs0 : s0 = s0' := String.ext hdata
            subst hs0
            exact ⟨rfl, ht2, fun hc => hcc hc⟩
    | millisecond ch =>
      simp only [printPython] at h h'
      split at h
      · rename_i hleaf
        rw [if_pos hleaf] at h'
        simp only [Option.some.injEq, Prod.mk.injEq] at h h'
        obtain ⟨rfl, rfl, rfl⟩ := h
        obtain ⟨rfl, rfl, rfl⟩ := h'
        exact ⟨rfl, List.append_cancel_left hts, by omega⟩
      · rename_i hleaf
        rw [if_neg hleaf] at h'
        split at h
        · simp at h
        · rename_i s0 sc0 c1 heq
          simp only [Option.some.injEq, Prod.mk.injEq] at h
          obtain ⟨rfl, rfl, rfl⟩ := h
          split at h'
          · simp at h'
          · rename_i s0' sc0' c1' heq'
            simp only [Option.some.injEq, Prod.mk.injEq] at h'
            obtain ⟨rfl, rfl, rfl⟩ := h'
            have hstr := printPython_strip (sizeOf ch) ch L c c' _ _ _ _ _ _ le_rfl heq heq'
            simp only [String.data_append, List.append_assoc] at hts
            obtain ⟨u, u', hu, hcont⟩ :=
              paren_peel s0 s0' _ _ (space_mem_iff_of_strip hstr.1) hts
            obtain ⟨hdata, hueq, hcc⟩ :=
              ih ch L c c' _ _ _ _ _ _ _ _ (by simp_arith at hn; omega) heq heq' hu
            have ht := hcont hdata hueq
            have ht2 : t = t' := List.append_cancel_left ht
            have hs0 : s0 = s0' := String.ext hdata
            subst hs0
            exact ⟨rfl, ht2, fun hc => hcc hc⟩
    | dt a ch =>
      simp only [printPython] at h h'
      split at h
      · rename_i hleaf
        rw [if_pos hleaf] at h'
        simp only [Option.some.injEq, Prod.mk.injEq] at h h'
        obtain ⟨rfl, rfl, rfl⟩ := h
        obtain ⟨rfl, rfl, rfl⟩ := h'
        exact ⟨rfl, List.append_cancel_left hts, by omega⟩
      · rename_i hleaf
        rw [if_neg hleaf] at h'
        split at h
        · simp at h
        · rename_i s0 sc0 c1 heq
          simp only [Option.some.injEq, Prod.mk.injEq] at h
          obtain ⟨rfl, rfl, rfl⟩ := h
          split at h'
          · simp at h'
          · rename_i s0' sc0' c1' heq'
            simp only [Option.some.injEq, Prod.mk.injEq] at h'
            obtain ⟨rfl, rfl, rfl⟩ := h'
            have hstr := printPython_strip (sizeOf ch) ch L c c' _ _ _ _ _ _ le_rfl heq heq'
            simp only [String.data_append, List.append_assoc] at hts
            obtain ⟨u, u', hu, hcont⟩ :=
              paren_peel s0 s0' _ _ (space_mem_iff_of_strip hstr.1) hts
            obtain ⟨hdata, hueq, hcc⟩ :=
              ih ch L c c' _ _ _ _ _ _ _ _ (by simp_arith at hn; omega) heq heq' hu
            have ht := hcont hdata hueq
            have ht2 : t = t' := List.append_cancel_left (List.append_cancel_left ht)
            have hs0 : s0 = s0' := String.ext hdata
            subst hs0
            exact ⟨rfl, ht2, fun hc => hcc hc⟩
    | map f ch =>
      simp only [printPython] at h h'
      split at h
      · rename_i hleaf
        rw [if_pos hleaf] at h'
        simp only [Option.some.injEq, Prod.mk.injEq] at h h'
        obtain ⟨rfl, rfl, rfl⟩ := h
        obtain ⟨rfl, rfl, rfl⟩ := h'
        exact ⟨rfl, List.append_cancel_left hts, by omega⟩
      · rename_i hleaf
        rw [if_neg hleaf] at h'
        split at h
        · simp at h
        · rename_i s0 sc0 c1 heq
          simp only [Option.some.injEq, Prod.mk.injEq] at h
          obtain ⟨rfl, rfl, rfl⟩ := h
          split at h'
          · simp at h'
          · rename_i s0' sc0' c1' heq'
            simp only [Option.some.injEq, Prod.mk.injEq] at h'
            obtain ⟨rfl, rfl, rfl⟩ := h'
            have hstr := printPython_strip (sizeOf ch) ch L c c' _ _ _ _ _ _ le_rfl heq heq'
            simp only [String.data_append, List.append_assoc] at hts
            rw [funcName_data, funcName_data] at hts
            simp only [List.cons_append, List.cons.injEq, true_and,
              List.singleton_append] at hts
            obtain ⟨hc1eq, hX⟩ := reprRun_eq c1 c1' _ _ hts
            obtain ⟨hdata, hXeq, hcc⟩ :=
              ih ch L c c' _ _ _ _ _ _ _ _ (by simp_arith at hn; omega) heq heq' hX
            have ht2 : t = t' := by simpa using hXeq
            have hs0 : s0 = s0' := String.ext hdata
            subst hs0
            refine ⟨by rw [hc1eq], ht2, fun _ => ?_⟩
            have hΔ := hstr.2
            have hm := (printPython_run_inv (sizeOf ch) ch L c _ _ _ le_rfl heq).1
            have hm' := (printPython_run_inv (sizeOf ch) ch L c' _ _ _ le_rfl heq').1
            omega
    | bcast cs ss se =>
      simp only [printPython] at h h'
      split at h
      · rename_i hleaf
        rw [if_pos hleaf] at h'
        simp only [Option.some.injEq, Prod.mk.injEq] at h h'
        obtain ⟨rfl, rfl, rfl⟩ := h
        obtain ⟨rfl, rfl, rfl⟩ := h'
        exact ⟨rfl, List.append_cancel_left hts, by omega⟩
      · simp at h
    | node tg b cs =>
      simp only [printPython] at h h'
      split at h
      · rename_i hleaf
        rw [if_pos hleaf] at h'
        simp only [Option.some.injEq, Prod.mk.injEq] at h h'
        obtain ⟨rfl, rfl, rfl⟩ := h
        obtain ⟨rfl, rfl, rfl⟩ := h'
        exact ⟨rfl, List.append_cancel_left hts, by omega⟩
      · simp at h


theorem bc_fired (e : Expr) (h : (WantToBroadcast e && e.isCollection) = true) :
    broadcastCollect e =
      Expr.bcast ((sortedLeaves e).map broadcastCollect) (sortedLeaves e) e := by
  rw [broadcastCollect, dif_pos h]
  simp [broadcastNode, Expr.withInputs]

theorem bc_else (e : Expr) (h : ¬(WantToBroadcast e && e.isCollection) = true) :
    broadcastCollect e = e.withInputs (e.inputs.map broadcastCollect) := by
  rw [broadcastCollect, dif_neg h]
  simp

theorem bc_nonNode (e : Expr) (h : e.isExprNode = false) : broadcastCollect e = e := by
  cases e <;> simp [Expr.isExprNode] at h <;>
    rw [bc_else _ (by simp [WantToBroadcast])] <;>
    simp [Expr.inputs, Expr.withInputs]

theorem bc_dtLit (r : String) : broadcastCollect (.dtLit r) = .dtLit r :=
  bc_nonNode _ rfl

theorem bc_lit (r : String) : broadcastCollect (.lit r) = .lit r :=
  bc_nonNode _ rfl

theorem bc_sym (n : String) (fs : List String) (b : Bool) :
    broadcastCollect (.sym n fs b) = .sym n fs b := by
  rw [bc_else _ (by simp [WantToBroadcast])]
  simp [Expr.inputs, Expr.withInputs]

theorem bc_field (ch : Expr) (nm : String) :
    broadcastCollect (.field ch nm) = .field (broadcastCollect ch) nm := by
  rw [bc_else _ (by simp [WantToBroadcast])]
  simp [Expr.inputs, Expr.withInputs]

theorem bc_arith (op : String) (l r : Expr)
    (h : (Expr.arith op l r).isCollection = false) :
    broadcastCollect (.arith op l r) = .arith op (broadcastCollect l) (broadcastCollect r) := by
  rw [bc_else _ (by simp [WantToBroadcast, h])]
  by_cases hl : l.isExprNode = true <;> by_cases hr : r.isExprNode = true
  · simp [Expr.inputs, Expr.withInputs, hl, hr]
  · have hr' : r.isExprNode = false := by simpa using hr
    simp [Expr.inputs, Expr.withInputs, hl, hr', bc_nonNode r hr']
  · have hl' : l.isExprNode = false := by simpa using hl
    simp [Expr.inputs, Expr.withInputs, hl', hr, bc_nonNode l hl']
  · have hl' : l.isExprNode = false := by simpa using hl
    have hr' : r.isExprNode = false := by simpa using hr
    simp [Expr.inputs, Expr.withInputs, hl', hr', bc_nonNode l hl', bc_nonNode r hr']

theorem bc_math (f : String) (ch : Expr) (h : (Expr.math f ch).isCollection = false) :
    broadcastCollect (.math f ch) = .math f (broadcastCollect ch) := by
  rw [bc_else _ (by simp [WantToBroadcast, h])]
  simp [Expr.inputs, Expr.withInputs]

theorem bc_date (ch : Expr) (h : (Expr.date ch).isCollection = false) :
    broadcastCollect (.date ch) = .date (broadcastCollect ch) := by
  rw [bc_else _ (by simp [WantToBroadcast, h])]
  simp [Expr.inputs, Expr.withInputs]

theorem bc_time (ch : Expr) (h : (Expr.time ch).isCollection = false) :
    broadcastCollect (.time ch) = .time (broadcastCollect ch) := by
  rw [bc_else _ (by simp [WantToBroadcast, h])]
  simp [Expr.inputs, Expr.withInputs]

theorem bc_millisecond (ch : Expr) (h : (Expr.millisecond ch).isCollection = false) :
    broadcastCollect (.millisecond ch) = .millisecond (broadcastCollect ch) := by
  rw [bc_else _ (by simp [WantToBroadcast, h])]
  simp [Expr.inputs, Expr.withInputs]

theorem bc_dt (a : String) (ch : Expr) (h : (Expr.dt a ch).isCollection = false) :
    broadcastCollect (.dt a ch) = .dt a (broadcastCollect ch) := by
  rw [bc_else _ (by simp [WantToBroadcast, h])]
  simp [Expr.inputs, Expr.withInputs]

theorem bc_map (f : Nat) (ch : Expr) (h : (Expr.map f ch).isCollection = false) :
    broadcastCollect (.map f ch) = .map f (broadcastCollect ch) := by
  rw [bc_else _ (by simp [WantToBroadcast, h])]
  simp [Expr.inputs, Expr.withInputs]

theorem bc_bcast (cs ss : List Expr) (se : Expr) :
    broadcastCollect (.bcast cs ss se) = .bcast (cs.map broadcastCollect) ss se := by
  rw [bc_else _ (by simp [WantToBroadcast])]
  simp [Expr.inputs, Expr.withInputs]

theorem bc_node (tg : String) (b : Bool) (cs : List Expr) :
    broadcastCollect (.node tg b cs) = .node tg b (cs.map broadcastCollect) := by
  rw [bc_else _ (by simp [WantToBroadcast])]
  simp [Expr.inputs, Expr.withInputs]


theorem wtb_isExprNode (e : Expr) (h : WantToBroadcast e = true) : e.isExprNode = true := by
  cases e <;> simp [WantToBroadcast] at h ⊢ <;> simp [Expr.isExprNode]

theorem bc_preserves : ∀ (n : Nat) (e : Expr), sizeOf e ≤ n →
    (broadcastCollect e).isCollection = e.isCollection ∧
    (broadcastCollect e).isExprNode = e.isExprNode := by
  intro n
  induction n with
  | zero => intro e hn; exact absurd hn (by cases e <;> simp_arith)
  | succ n ih =>
    intro e hn
    by_cases hw : (WantToBroadcast e && e.isCollection) = true
    · rw [bc_fired e hw]
      rw [Bool.and_eq_true] at hw
      refine ⟨by simp [Expr.isCollection, hw.2], ?_⟩
      rw [show (Expr.bcast ((sortedLeaves e).map broadcastCollect) (sortedLeaves e) e).isExprNode
          = true from rfl, wtb_isExprNode e hw.1]
    · cases e with
      | dtLit r => rw [bc_dtLit]; exact ⟨rfl, rfl⟩
      | lit r => rw [bc_lit]; exact ⟨rfl, rfl⟩
      | sym nm fs b => rw [bc_sym]; exact ⟨rfl, rfl⟩
      | field ch nm =>
        rw [bc_field]
        have h1 := ih ch (by simp_arith at hn; omega)
        exact ⟨by simp [Expr.isCollection, h1.1], rfl⟩
      | arith op l r =>
        have hcol : (Expr.arith op l r).isCollection = false := by
          revert hw; simp [WantToBroadcast]
        rw [bc_arith op l r hcol]
        have h1 := ih l (by simp_arith at hn; omega)
        have h2 := ih r (by simp_arith at hn; omega)
        exact ⟨by simp [Expr.isCollection, h1.1, h2.1], rfl⟩
      | math f ch =>
        have hcol : (Expr.math f ch).isCollection = false := by
          revert hw; simp [WantToBroadcast]
        rw [bc_math f ch hcol]
        have h1 := ih ch (by simp_arith at hn; omega)
        exact ⟨by simp [Expr.isCollection, h1.1], rfl⟩
      | date ch =>
        have hcol : (Expr.date ch).isCollection = false := by
          revert hw; simp [WantToBroadcast]
        rw [bc_date ch hcol]
        have h1 := ih ch (by simp_arith at hn; omega)
        exact ⟨by simp [Expr.isCollection, h1.1], rfl⟩
      | time ch =>
        have hcol : (Expr.time ch).isCollection = false := by
          revert hw; simp [WantToBroadcast]
        rw [bc_time ch hcol]
        have h1 := ih ch (by simp_arith at hn; omega)
        exact ⟨by simp [Expr.isCollection, h1.1], rfl⟩
      | millisecond ch =>
        have hcol : (Expr.millisecond ch).isCollection = false := by
          revert hw; simp [WantToBroadcast]
        rw [bc_millisecond ch hcol]
        have h1 := ih ch (by simp_arith at hn; omega)
        exact ⟨by simp [Expr.isCollection, h1.1], rfl⟩
      | dt a ch =>
        have hcol : (Expr.dt a ch).isCollection = false := by
          revert hw; simp [WantToBroadcast]
        rw [bc_dt a ch hcol]
        have h1 := ih ch (by simp_arith at hn; omega)
        exact ⟨by simp [Expr.isCollection, h1.1], rfl⟩
      | map f ch =>
        have hcol : (Expr.map f ch).isCollection = false := by
          revert hw; simp [WantToBroadcast]
        rw [bc_map f ch hcol]
        have h1 := ih ch (by simp_arith at hn; omega)
        exact ⟨by simp [Expr.isCollection, h1.1], rfl⟩
      | bcast cs ss se => rw [bc_bcast]; exact ⟨rfl, rfl⟩
      | node tg b cs => rw [bc_node]; exact ⟨rfl, rfl⟩

theorem bc_idem : ∀ (n : Nat) (e : Expr), sizeOf e ≤ n →
    broadcastCollect (broadcastCollect e) = broadcastCollect e := by
  intro n
  induction n with
  | zero => intro e hn; exact absurd hn (by cases e <;> simp_arith)
  | succ n ih =>
    intro e hn
    by_cases hw : (WantToBroadcast e && e.isCollection) = true
    · rw [bc_fired e hw, bc_bcast]
      congr 1
      rw [List.map_map]
      apply List.map_congr_left
      intro ℓ hℓ
      have hmem : ℓ ∈ leavesOfType Broadcastable e := by
        have hp := List.perm_insertionSort keyLE ((leavesOfType Broadcastable e).dedup)
        exact List.mem_dedup.mp (hp.mem_iff.mp (by simpa [sortedLeaves] using hℓ))
      have hB : Broadcastable e = true := by
        rw [Bool.and_eq_true] at hw
        have hw1 := hw.1
        cases e <;> simp [WantToBroadcast, Broadcastable] at hw1 ⊢
      have hsz := sizeOf_leavesOfType_lt Broadcastable e ℓ hB hmem
      simp only [Function.comp]
      exact ih ℓ (by omega)
    · cases e with
      | dtLit r => rw [bc_dtLit, bc_dtLit]
      | lit r => rw [bc_lit, bc_lit]
      | sym nm fs b => rw [bc_sym, bc_sym]
      | field ch nm =>
        rw [bc_field, bc_field, ih ch (by simp_arith at hn; omega)]
      | arith op l r =>
        have hcol : (Expr.arith op l r).isCollection = false := by
          revert hw; simp [WantToBroadcast]
        have hl := bc_preserves (sizeOf l) l le_rfl
        have hr := bc_preserves (sizeOf r) r le_rfl
        have hcol2 : (Expr.arith op (broadcastCollect l) (broadcastCollect r)).isCollection
            = false := by
          simpa [Expr.isCollection, hl.1, hr.1] using hcol
        rw [bc_arith op l r hcol, bc_arith _ _ _ hcol2,
          ih l (by simp_arith at hn; omega), ih r (by simp_arith at hn; omega)]
      | math f ch =>
        have hcol : (Expr.math f ch).isCollection = false := by
          revert hw; simp [WantToBroadcast]
        have h1 := bc_preserves (sizeOf ch) ch le_rfl
        have hcol2 : (Expr.math f (broadcastCollect ch)).isCollection = false := by
          simpa [Expr.isCollection, h1.1] using hcol
        rw [bc_math f ch hcol, bc_math _ _ hcol2, ih ch (by simp_arith at hn; omega)]
      | date ch =>
        have hcol : (Expr.date ch).isCollection = false := by
          revert hw; simp [WantToBroadcast]
        have h1 := bc_preserves (sizeOf ch) ch le_rfl
        have hcol2 : (Expr.date (broadcastCollect ch)).isCollection = false := by
          simpa [Expr.isCollection, h1.1] using hcol
        rw [bc_date ch hcol, bc_date _ hcol2, ih ch (by simp_arith at hn; omega)]
      | time ch =>
        have hcol : (Expr.time ch).isCollection = false := by
          revert hw; simp [WantToBroadcast]
        have h1 := bc_preserves (sizeOf ch) ch le_rfl
        have hcol2 : (Expr.time (broadcastCollect ch)).isCollection = false := by
          simpa [Expr.isCollection, h1.1] using hcol
        rw [bc_time ch hcol, bc_time _ hcol2, ih ch (by simp_arith at hn; omega)]
      | millisecond ch =>
        have hcol : (Expr.millisecond ch).isCollection = false := by
          revert hw; simp [WantToBroadcast]
        have h1 := bc_preserves (sizeOf ch) ch le_rfl
        have hcol2 : (Expr.millisecond (broadcastCollect ch)).isCollection = false := by
          simpa [Expr.isCollection, h1.1] using hcol
        rw [bc_millisecond ch hcol, bc_millisecond _ hcol2, ih ch (by simp_arith at hn; omega)]
      | dt a ch =>
        have hcol : (Expr.dt a ch).isCollection = false := by
          revert hw; simp [WantToBroadcast]
        have h1 := bc_preserves (sizeOf ch) ch le_rfl
        have hcol2 : (Expr.dt a (broadcastCollect ch)).isCollection = false := by
          simpa [Expr.isCollection, h1.1] using hcol
        rw [bc_dt a ch hcol, bc_dt _ _ hcol2, ih ch (by simp_arith at hn; omega)]
      | map f ch =>
        have hcol : (Expr.map f ch).isCollection = false := by
          revert hw; simp [WantToBroadcast]
        have h1 := bc_preserves (sizeOf ch) ch le_rfl
        have hcol2 : (Expr.map f (broadcastCollect ch)).isCollection = false := by
          simpa [Expr.isCollection, h1.1] using hcol
        rw [bc_map f ch hcol, bc_map _ _ hcol2, ih ch (by simp_arith at hn; omega)]
      | bcast cs ss se =>
        rw [bc_bcast, bc_bcast]
        congr 1
        rw [List.map_map]
        apply List.map_congr_left
        intro x hx
        have hsz := List.sizeOf_lt_of_mem hx
        simp only [Function.comp]
        exact ih x (by simp_arith at hn; omega)
      | node tg b cs =>
        rw [bc_node, bc_node]
        congr 1
        rw [List.map_map]
        apply List.map_congr_left
        intro x hx
        have hsz := List.sizeOf_lt_of_mem hx
        simp only [Function.comp]
        exact ih x (by simp_arith at hn; omega)


theorem leavesOfType_not_ty : ∀ (n : Nat) (ty : Expr → Bool) (e ℓ : Expr),
    sizeOf e ≤ n → ℓ ∈ leavesOfType ty e → ty ℓ = false := by
  intro n
  induction n with
  | zero => intro ty e ℓ hn _; exact absurd hn (by cases e <;> simp_arith)
  | succ n ih =>
    intro ty e ℓ hn hm
    rw [leavesOfType] at hm
    split at hm
    · simp only [List.mem_flatten, List.mem_map] at hm
      obtain ⟨l', ⟨x, hx, rfl⟩, hl⟩ := hm
      have hlt := Expr.sizeOf_inputs_lt x.1 e x.2
      exact ih ty x.1 ℓ (by omega) hl
    · rename_i hty
      simp only [List.mem_singleton] at hm
      subst hm
      simpa using hty

theorem sortedLeaves_sorted (e : Expr) : List.Sorted keyLE (sortedLeaves e) :=
  List.sorted_insertionSort keyLE _

theorem sortedLeaves_nodup (e : Expr) : (sortedLeaves e).Nodup :=
  ((List.perm_insertionSort keyLE _).nodup_iff).mpr (List.nodup_dedup _)

theorem mem_sortedLeaves (e ℓ : Expr) :
    ℓ ∈ sortedLeaves e ↔ ℓ ∈ leavesOfType Broadcastable e := by
  rw [sortedLeaves, (List.perm_insertionSort keyLE _).mem_iff, List.mem_dedup]


/-- C1: for the leaf set `[t]` with `t` a record symbol with fields
`[x, y, z, when]`, compiling `t.x + t.y` yields the text `t[0] + t[1]`
with an empty scope; the realized callable applied to the row
`(1, 10, 100, '')` returns `11`; and for the leaf set `[t.x, t.y]` the same
expression compiles to `x + y`. -/
theorem C1_end_to_end_compile_and_realize :
    printPython [Expr.sym "t" ["x", "y", "z", "when"] false]
        (.arith "+" (.field (.sym "t" ["x", "y", "z", "when"] false) "x")
          (.field (.sym "t" ["x", "y", "z", "when"] false) "y")) 0
      = some ("t[0] + t[1]", [], 0)
  ∧ lambdifyModel [Expr.sym "t" ["x", "y", "z", "when"] false]
        (.arith "+" (.field (.sym "t" ["x", "y", "z", "when"] false) "x")
          (.field (.sym "t" ["x", "y", "z", "when"] false) "y"))
        [Val.vtup [Val.vint 1, Val.vint 10, Val.vint 100, Val.vstr ""]]
      = some (Val.vint 11)
  ∧ printPython
        [Expr.field (.sym "t" ["x", "y", "z", "when"] false) "x",
         Expr.field (.sym "t" ["x", "y", "z", "when"] false) "y"]
        (.arith "+" (.field (.sym "t" ["x", "y", "z", "when"] false) "x")
          (.field (.sym "t" ["x", "y", "z", "when"] false) "y")) 0
      = some ("x + y", [], 0) :=
  ⟨rfl, rfl, rfl⟩

/-- C2: whenever the compiled expression is structurally equal to an entry of
the leaf list, `print_python` returns that leaf's stable name with an empty
scope and an untouched counter — before the bare-symbol case and before any
recursion into children, whatever the node's own category. -/
theorem C2_leaf_shortcut_precedence (L : List Expr) (e : Expr) (c : Nat)
    (hnode : e.isExprNode = true) (hleaf : isLeafMatch L e = true) :
    printPython L e c = some (e.exprName, [], c) := by
  cases e <;> simp [Expr.isExprNode] at hnode <;> simp [printPython, hleaf]

/-- C2 witness: the leaf check short-circuits even on a field-access node. -/
theorem C2_leaf_shortcut_precedence_witness :
    printPython [Expr.field (.sym "t" ["x", "y", "z", "when"] false) "x"]
        (Expr.field (.sym "t" ["x", "y", "z", "when"] false) "x") 5
      = some ("x", [], 5) :=
  C2_leaf_shortcut_precedence _ _ 5 (by decide) (by decide)

/-- C3 counterexample: a bare named symbol whose name contains a space is
parenthesized as an operand, so "no parentheses are added around a bare
symbol's rendered name" fails as stated. -/
theorem C3_counterexample :
    printPython [] (.arith "+" (.sym "a b" [] false) (.lit "1")) 0
      = some ("(a b) + 1", [], 0)
  ∧ ("(a b) + 1" : String) ≠ "a b + 1" :=
  ⟨rfl, by decide⟩

/-- C3 (amended): the compiler applies `parenthesize` to both operand texts
of a binary arithmetic node; a nested non-leaf binary-arithmetic operand is
always wrapped (its text contains a space); an operand text without a space
— in particular the rendered name of a bare symbol without a space in its
name — is left unwrapped. -/
theorem C3_parenthesization_amended (L : List Expr) (c : Nat) :
    (∀ op l r s sc d, isLeafMatch L (.arith op l r) = false →
      printPython L (.arith op l r) c = some (s, sc, d) →
      ∃ sa sb sca scb c1, printPython L l c = some (sa, sca, c1) ∧
        printPython L r c1 = some (sb, scb, d) ∧
        s = parenthesize sa ++ " " ++ op ++ " " ++ parenthesize sb ∧
        sc = scopeMerge sca scb)
  ∧ (∀ op2 a b s sc d, isLeafMatch L (.arith op2 a b) = false →
      printPython L (.arith op2 a b) c = some (s, sc, d) →
      parenthesize s = "(" ++ s ++ ")")
  ∧ (∀ s : String, ¬ ' ' ∈ s.data → parenthesize s = s)
  ∧ (∀ nm fs b, isLeafMatch L (.sym nm fs b) = false →
      printPython L (.sym nm fs b) c = some (nm, [], c)) := by
  have inv : ∀ op l r s sc d, isLeafMatch L (.arith op l r) = false →
      printPython L (.arith op l r) c = some (s, sc, d) →
      ∃ sa sb sca scb c1, printPython L l c = some (sa, sca, c1) ∧
        printPython L r c1 = some (sb, scb, d) ∧
        s = parenthesize sa ++ " " ++ op ++ " " ++ parenthesize sb ∧
        sc = scopeMerge sca scb := by
    intro op l r s sc d hleaf h
    simp only [printPython] at h
    rw [if_neg (by simp [hleaf])] at h
    split at h
    · simp at h
    · rename_i s1 sc1 c1 heq1
      split at h
      · simp at h
      · rename_i s2 sc2 c2 heq2
        simp only [Option.some.injEq, Prod.mk.injEq] at h
        obtain ⟨rfl, rfl, rfl⟩ := h
        exact ⟨s1, s2, sc1, sc2, c1, heq1, heq2, rfl, rfl⟩
  refine ⟨inv, ?_, ?_, ?_⟩
  · intro op2 a b s sc d hleaf h
    obtain ⟨sa, sb, sca, scb, c1, h1, h2, rfl, rfl⟩ := inv op2 a b s sc d hleaf h
    have hx : ' ' ∈ (" ").data := by decide
    have hsp : ' ' ∈ (parenthesize sa ++ " " ++ op2 ++ " " ++ parenthesize sb).data := by
      simp only [String.data_append, List.mem_append]
      tauto
    rw [parenthesize, if_pos hsp]
  · intro s hs
    rw [parenthesize, if_neg hs]
  · intro nm fs b hleaf
    simp [printPython, hleaf]

/-- C3 witness: a nested arithmetic operand gets wrapped; a spaceless symbol
name does not. -/
theorem C3_parenthesization_amended_witness :
    parenthesize "x + y" = "(x + y)"
  ∧ parenthesize "x" = "x"
  ∧ printPython [] (.sym "x" [] false) 0 = some ("x", [], 0) :=
  ⟨(C3_parenthesization_amended [] 0).2.1 "+" (.sym "x" [] false) (.sym "y" [] false)
      "x + y" [] 0 (by decide) rfl,
   (C3_parenthesization_amended [] 0).2.2.1 "x" (by decide),
   (C3_parenthesization_amended [] 0).2.2.2 "x" [] false (by decide)⟩

/-- C4: a millisecond-accessor node renders exactly the text
`<parenthesized-child-text>.microsecond // 1000()` — including the literal
trailing `()` — passing the child's scope and counter through unchanged. -/
theorem C4_millisecond_rendering (L : List Expr) (ch : Expr) (c : Nat)
    (hleaf : isLeafMatch L (.millisecond ch) = false) :
    printPython L (.millisecond ch) c =
      (printPython L ch c).map
        (fun r => (parenthesize r.1 ++ ".microsecond // 1000()", r.2.1, r.2.2)) := by
  simp only [printPython]
  rw [if_neg (by simp [hleaf])]
  cases printPython L ch c with
  | none => rfl
  | some r => rcases r with ⟨s, sc, c1⟩; rfl

/-- C4 witness. -/
theorem C4_millisecond_rendering_witness :
    printPython [] (.millisecond (.sym "w" [] false)) 0
      = some ("w.microsecond // 1000()", [], 0) := by
  rw [C4_millisecond_rendering [] (.sym "w" [] false) 0 (by decide)]
  rfl

/-- C5: the counter only advances; a compilation's scope binds the
placeholder `func_i` exactly for the counter values `i` it consumed, with no
key bound twice; placeholders of two in-process compilations (the second
starting at the counter the first returned) are pairwise distinct; and a
compiled map node binds its fresh placeholder to the wrapped function in the
returned scope. -/
theorem C5_placeholder_uniqueness :
    (∀ L e c s sc d, printPython L e c = some (s, sc, d) →
      c ≤ d ∧ (scopeKeys sc).Nodup ∧
        (∀ i, funcName i ∈ scopeKeys sc ↔ c ≤ i ∧ i < d))
  ∧ (∀ L e c s sc d L2 e2 s2 sc2 d2,
      printPython L e c = some (s, sc, d) →
      printPython L2 e2 d = some (s2, sc2, d2) →
      ∀ i j, funcName i ∈ scopeKeys sc → funcName j ∈ scopeKeys sc2 →
        funcName i ≠ funcName j)
  ∧ (∀ L f ch c s0 sc0 c1, isLeafMatch L (.map f ch) = false →
      printPython L ch c = some (s0, sc0, c1) →
      printPython L (.map f ch) c =
        some (funcName c1 ++ "(" ++ s0 ++ ")",
          scopeAssoc sc0 (funcName c1) (.fnObj f), c1 + 1)
      ∧ (funcName c1, ScopeVal.fnObj f) ∈ scopeAssoc sc0 (funcName c1) (.fnObj f)) := by
  refine ⟨?_, ?_, ?_⟩
  · intro L e c s sc d h
    exact printPython_run_inv (sizeOf e) e L c s sc d le_rfl h
  · intro L e c s sc d L2 e2 s2 sc2 d2 h h2 i j hi hj
    have r1 := printPython_run_inv (sizeOf e) e L c s sc d le_rfl h
    have r2 := printPython_run_inv (sizeOf e2) e2 L2 d s2 sc2 d2 le_rfl h2
    have hi2 := (r1.2.2 i).mp hi
    have hj2 := (r2.2.2 j).mp hj
    intro hcontra
    have := funcName_inj i j hcontra
    omega
  · intro L f ch c s0 sc0 c1 hleaf heq
    constructor
    · simp only [printPython]
      rw [if_neg (by simp [hleaf])]
      simp only [heq]
    · exact mem_scopeAssoc_self sc0 (funcName c1) (.fnObj f)

/-- C5 witness: two consecutive compilations of a map node at counter states
5 and 6 produce the distinct placeholders `func_5` and `func_6`. -/
theorem C5_placeholder_uniqueness_witness :
    (5 ≤ 6 ∧ (scopeKeys [("func_5", ScopeVal.fnObj 7)]).Nodup ∧
      (funcName 5 ∈ scopeKeys [("func_5", ScopeVal.fnObj 7)] ↔ 5 ≤ 5 ∧ 5 < 6))
  ∧ funcName 5 ≠ funcName 6
  ∧ (printPython [] (.map 7 (.sym "s" [] false)) 5 =
      some (funcName 5 ++ "(" ++ "s" ++ ")",
        scopeAssoc [] (funcName 5) (.fnObj 7), 6)
      ∧ (funcName 5, ScopeVal.fnObj 7) ∈ scopeAssoc [] (funcName 5) (.fnObj 7)) := by
  refine ⟨?_, ?_, ?_⟩
  · have r := C5_placeholder_uniqueness.1 [] (.map 7 (.sym "s" [] false)) 5
      "func_5(s)" [("func_5", ScopeVal.fnObj 7)] 6 rfl
    exact ⟨r.1, r.2.1, r.2.2 5⟩
  · exact C5_placeholder_uniqueness.2.1 [] (.map 7 (.sym "s" [] false)) 5
      "func_5(s)" [("func_5", ScopeVal.fnObj 7)] 6
      [] (.map 8 (.sym "u" [] false)) "func_6(u)" [("func_6", ScopeVal.fnObj 8)] 7
      rfl rfl 5 6 (by decide) (by decide)
  · exact C5_placeholder_uniqueness.2.2 [] 7 (.sym "s" [] false) 5 "s" [] 5
      (by decide) rfl

/-- C6: a node whose category is outside the closed grammar (a `Broadcast`
node or any other unhandled expression category), unless it is itself a
designated leaf, makes compilation fail (`raise NotImplementedError()`)
with no partial result. -/
theorem C6_unsupported_expression (L : List Expr) (e : Expr) (c : Nat)
    (hout : outsideGrammar e = true) (hleaf : isLeafMatch L e = false) :
    printPython L e c = none := by
  cases e <;> simp [outsideGrammar] at hout <;> simp [printPython, hleaf]

/-- C6 witness. -/
theorem C6_unsupported_expression_witness :
    printPython [] (.bcast [] [] (.lit "0")) 3 = none :=
  C6_unsupported_expression [] (.bcast [] [] (.lit "0")) 3 (by decide) (by decide)

/-- C7: a `WantToBroadcast`-category node whose declared shape is scalar is
never replaced by a fused `Broadcast` node: the rewrite keeps the node and
only rewrites its children. -/
theorem C7_scalar_never_fused (e : Expr) (hw : WantToBroadcast e = true)
    (hc : e.isCollection = false) :
    broadcastCollect e = e.withInputs (e.inputs.map broadcastCollect)
  ∧ ∀ cs ss se, broadcastCollect e ≠ .bcast cs ss se := by
  have hcond : ¬(WantToBroadcast e && e.isCollection) = true := by simp [hw, hc]
  refine ⟨bc_else e hcond, ?_⟩
  intro cs ss se hcontra
  cases e with
  | arith op l r => rw [bc_arith op l r hc] at hcontra; exact Expr.noConfusion hcontra
  | math f ch => rw [bc_math f ch hc] at hcontra; exact Expr.noConfusion hcontra
  | date ch => rw [bc_date ch hc] at hcontra; exact Expr.noConfusion hcontra
  | time ch => rw [bc_time ch hc] at hcontra; exact Expr.noConfusion hcontra
  | millisecond ch => rw [bc_millisecond ch hc] at hcontra; exact Expr.noConfusion hcontra
  | dt a ch => rw [bc_dt a ch hc] at hcontra; exact Expr.noConfusion hcontra
  | map f ch => rw [bc_map f ch hc] at hcontra; exact Expr.noConfusion hcontra
  | _ => simp [WantToBroadcast] at hw

/-- C7 witness: `t.x + t.y` over a scalar record symbol is arithmetic
(fusable category) but scalar-shaped, and is not fused. -/
theorem C7_scalar_never_fused_witness :
    broadcastCollect
        (.arith "+" (.field (.sym "t" ["x", "y", "z", "when"] false) "x")
          (.field (.sym "t" ["x", "y", "z", "when"] false) "y"))
      = (Expr.arith "+" (.field (.sym "t" ["x", "y", "z", "when"] false) "x")
          (.field (.sym "t" ["x", "y", "z", "when"] false) "y")).withInputs
          ((Expr.arith "+" (.field (.sym "t" ["x", "y", "z", "when"] false) "x")
            (.field (.sym "t" ["x", "y", "z", "when"] false) "y")).inputs.map
            broadcastCollect)
  ∧ broadcastCollect
        (.arith "+" (.field (.sym "t" ["x", "y", "z", "when"] false) "x")
          (.field (.sym "t" ["x", "y", "z", "when"] false) "y"))
      ≠ .bcast [] [] (.lit "0") :=
  ⟨(C7_scalar_never_fused _ (by decide) (by decide)).1,
   (C7_scalar_never_fused _ (by decide) (by decide)).2 [] [] (.lit "0")⟩

/-- C8: the broadcast fuser is idempotent: fusing a fused tree changes
nothing. -/
theorem C8_fuser_idempotent (e : Expr) :
    broadcastCollect (broadcastCollect e) = broadcastCollect e :=
  bc_idem (sizeOf e) e le_rfl

/-- C9: when the fuser replaces a collection-shaped fusable node `e`, the
leaf set it attaches is `leaves_of_type(Broadcastable, e)` — recursing only
through broadcastable-category nodes and treating every other node as an
opaque leaf (never a broadcastable node itself) — deduplicated and ordered
by the canonical string key; the fused node is created with its children and
its scalar leaf-reference list both equal to that ordered set and its stored
scalar expression the original `e` unchanged (the subsequent step-2
recursion rewrites only the children in place). -/
theorem C9_fused_leaf_set (e : Expr) (hw : WantToBroadcast e = true)
    (hc : e.isCollection = true) :
    broadcastNode e (sortedLeaves e) =
      Expr.bcast (sortedLeaves e) (sortedLeaves e) e
  ∧ broadcastCollect e =
      Expr.bcast ((sortedLeaves e).map broadcastCollect) (sortedLeaves e) e
  ∧ List.Sorted keyLE (sortedLeaves e)
  ∧ (sortedLeaves e).Nodup
  ∧ (∀ ℓ, ℓ ∈ sortedLeaves e ↔ ℓ ∈ leavesOfType Broadcastable e)
  ∧ (∀ ℓ ∈ sortedLeaves e, Broadcastable ℓ = false) := by
  refine ⟨rfl, bc_fired e (by simp [hw, hc]), sortedLeaves_sorted e, sortedLeaves_nodup e,
    mem_sortedLeaves e, ?_⟩
  intro ℓ hℓ
  exact leavesOfType_not_ty (sizeOf e) Broadcastable e ℓ le_rfl ((mem_sortedLeaves e ℓ).mp hℓ)

/-- C9 witness: the doctest tree `t.x + 2 * t.y` over a collection-shaped
record symbol. -/
theorem C9_fused_leaf_set_witness :
    broadcastCollect
        (.arith "+" (.field (.sym "t" ["x", "y", "z", "when"] true) "x")
          (.arith "*" (.lit "2") (.field (.sym "t" ["x", "y", "z", "when"] true) "y")))
      = Expr.bcast
          ((sortedLeaves
            (.arith "+" (.field (.sym "t" ["x", "y", "z", "when"] true) "x")
              (.arith "*" (.lit "2")
                (.field (.sym "t" ["x", "y", "z", "when"] true) "y")))).map broadcastCollect)
          (sortedLeaves
            (.arith "+" (.field (.sym "t" ["x", "y", "z", "when"] true) "x")
              (.arith "*" (.lit "2")
                (.field (.sym "t" ["x", "y", "z", "when"] true) "y"))))
          (.arith "+" (.field (.sym "t" ["x", "y", "z", "when"] true) "x")
            (.arith "*" (.lit "2") (.field (.sym "t" ["x", "y", "z", "when"] true) "y")))
  ∧ (∀ ℓ ∈ sortedLeaves
        (.arith "+" (.field (.sym "t" ["x", "y", "z", "when"] true) "x")
          (.arith "*" (.lit "2") (.field (.sym "t" ["x", "y", "z", "when"] true) "y"))),
      Broadcastable ℓ = false) :=
  ⟨(C9_fused_leaf_set _ (by decide) (by decide)).2.1,
   (C9_fused_leaf_set _ (by decide) (by decide)).2.2.2.2.2⟩

/-- C10 counterexample: an expression containing an elementwise-map node that
is itself a designated leaf compiles without consuming the counter, so two
in-process runs are the identical call and return identical texts — refuting
"for any expression containing an elementwise-map node, two runs return
different texts". -/
theorem C10_counterexample :
    (Expr.map 0 (.sym "t" [] false)).hasMap = true
  ∧ printPython [Expr.map 0 (.sym "t" [] false)] (Expr.map 0 (.sym "t" [] false)) 0
      = some ("t", [], 0) :=
  ⟨by simp [Expr.hasMap], rfl⟩

/-- C10 (amended): compilation of an expression with no elementwise-map node
is deterministic — the counter does not advance and any two runs return the
identical text and scope; by contrast, when a run actually consumes the
counter (an elementwise-map node is compiled rather than short-circuited by
the leaf check), the next in-process run returns a different text and a
different scope-key list, the texts agreeing once the generated digits are
erased (only the placeholder names differ). -/
theorem C10_determinism_amended :
    (∀ L e c c' s sc d, e.hasMap = false → printPython L e c = some (s, sc, d) →
      d = c ∧ printPython L e c' = some (s, sc, c'))
  ∧ (∀ L e c s sc d s' sc' d', printPython L e c = some (s, sc, d) → c < d →
      printPython L e d = some (s', sc', d') →
      s ≠ s' ∧ scopeKeys sc ≠ scopeKeys sc'
        ∧ stripDigits s.data = stripDigits s'.data) := by
  constructor
  · intro L e c c' s sc d hm h
    exact printPython_noMap (sizeOf e) e L c s sc d c' le_rfl hm h
  · intro L e c s sc d s' sc' d' h hcd h'
    refine ⟨?_, ?_,
      (printPython_strip (sizeOf e) e L c d _ _ _ _ _ _ le_rfl h h').1⟩
    · intro hss
      have hq := printPython_inj (sizeOf e) e L c d _ _ _ _ _ _ [] [] le_rfl h h'
        (by rw [hss])
      exact absurd (hq.2.2 hcd) (by omega)
    · intro hkeys
      have hA : funcName c ∈ scopeKeys sc :=
        ((printPython_run_inv (sizeOf e) e L c _ _ _ le_rfl h).2.2 c).mpr ⟨le_rfl, hcd⟩
      rw [hkeys] at hA
      have hB := ((printPython_run_inv (sizeOf e) e L d _ _ _ le_rfl h').2.2 c).mp hA
      omega

/-- C10 witness: a map-free expression compiles identically at counters 0
and 9; a compiled map node at counters 0 then 1 yields different texts and
scope keys that agree after erasing digits. -/
theorem C10_determinism_amended_witness :
    (0 = 0 ∧ printPython [] (.arith "+" (.sym "x" [] false) (.sym "y" [] false)) 9
      = some ("x + y", [], 9))
  ∧ ("func_0(s)" : String) ≠ "func_1(s)"
  ∧ scopeKeys [("func_0", ScopeVal.fnObj 7)] ≠ scopeKeys [("func_1", ScopeVal.fnObj 7)]
  ∧ stripDigits ("func_0(s)" : String).data = stripDigits ("func_1(s)" : String).data := by
  refine ⟨?_, ?_⟩
  · exact C10_determinism_amended.1 [] (.arith "+" (.sym "x" [] false) (.sym "y" [] false))
      0 9 "x + y" [] 0 (by simp [Expr.hasMap]) rfl
  · have hq := C10_determinism_amended.2 [] (.map 7 (.sym "s" [] false)) 0
      "func_0(s)" [("func_0", ScopeVal.fnObj 7)] 1
      "func_1(s)" [("func_1", ScopeVal.fnObj 7)] 2 rfl (by omega) rfl
    exact ⟨hq.1, hq.2.1, hq.2.2⟩

end Pyfunc
